import Mathlib

/-!
LFortran LSP language server: the request-handling core.

A shallow embedding of `src/bin/lfortran_lsp_language_server.cpp`.

* C++ `std::vector` is a `List`, `std::optional` is an `Option`, a `std::map` is an
  association list with `mapFind` / `mapReplace`.
* `fs::path` and `std::string` are `String`.
* Unsigned 32-bit arithmetic (`uint32_t`, `uinteger`, `unsigned int`) is arithmetic on `Nat`
  reduced modulo `2 ^ 32`.
* A thrown C++ value is a value of `Exception`; a function that may throw returns `Except`.
  A handler `catch (std::exception &)` catches the values derived from `std::exception` only.
* The object behind a shared pointer is passed as the value it has when it is read; where
  the moment of a read matters (`validateTask`) the values at the two moments are passed.
* A pointer into the `symbols` vector is the index of the element together with the element.
* The sequential behaviour is modelled: locks are not represented, writes to the logger
  are dropped; the notifications sent to the client are returned in the order sent.
-/

set_option autoImplicit false

deriving instance DecidableEq for Except

namespace LFortranLsp

/-! ## Protocol and compiler data -/

abbrev DocumentUri := String

/-- Modelled from the spec: the width of the unsigned integers that hold line and column
numbers and the problem count (`uint32_t`, `uinteger`, `unsigned int`); their declarations
are in headers that are not part of the sources. -/
def UINT_MOD : Nat := 2 ^ 32

/-- The C++ expression `x - 1` on an unsigned 32-bit operand. -/
def uintPred (x : Nat) : Nat := (x + (UINT_MOD - 1)) % UINT_MOD

/-- The C++ expression `x + 1` on an unsigned 32-bit operand. -/
def uintSucc (x : Nat) : Nat := (x + 1) % UINT_MOD

/-- Modelled from the spec: `diag::Level`, the severity of a compiler issue; `other` stands
for every enumerator that the switch in `diagnosticLevelToLspSeverity` does not name. -/
inductive Level where
  | Error
  | Warning
  | Note
  | Help
  | other (raw : Nat)
deriving DecidableEq, Repr

/-- Modelled from the spec: the protocol's four diagnostic severities. -/
inductive DiagnosticSeverity where
  | Error
  | Warning
  | Information
  | Hint
deriving DecidableEq, Repr

/-- Modelled from the spec: `ASR::symbolType`; `other` stands for every enumerator that the
switch in `asrSymbolTypeToLspSymbolKind` does not name. -/
inductive symbolType where
  | Module
  | Function
  | GenericProcedure
  | CustomOperator
  | Struct
  | Enum
  | Variable
  | Class
  | ClassProcedure
  | Template
  | other (raw : Nat)
deriving DecidableEq, Repr

/-- Modelled from the spec: the protocol's symbol kinds that the server produces. -/
inductive SymbolKind where
  | Module
  | Function
  | Operator
  | Struct
  | Enum
  | Variable
  | Class
  | Method
  | TypeParameter
deriving DecidableEq, Repr

/-- Modelled from the spec: the protocol error codes used by the server. -/
inductive ErrorCodes where
  | InvalidParams
  | InternalError
deriving DecidableEq, Repr

/-- A thrown C++ value: an `LspException` with its error code, any other exception derived
from `std::exception` (for instance the `std::out_of_range` of `vector::at` or a
`std::filesystem::filesystem_error`), or a value of a type that does not derive from
`std::exception`. -/
inductive Exception where
  | LspException (code : ErrorCodes) (what : String)
  | stdException (what : String)
  | nonStandard (description : String)
deriving DecidableEq, Repr

/-- Whether a handler `catch (std::exception &e)` catches the thrown value. -/
def Exception.isStdException : Exception → Bool
  | .LspException _ _ => true
  | .stdException _ => true
  | .nonStandard _ => false

/-- Modelled from the spec: a 0-based protocol position. -/
structure Position where
  line : Nat
  character : Nat
deriving DecidableEq, Repr

/-- Modelled from the spec: a protocol range; `stop` is the C++ member `end`. -/
structure Range where
  start : Position
  stop : Position
deriving DecidableEq, Repr

/-- Modelled from the spec: `lc::error_highlight`, one issue reported by `showErrors`,
with 1-based coordinates. -/
structure error_highlight where
  message : String
  first_line : Nat
  first_column : Nat
  last_line : Nat
  last_column : Nat
  severity : Level
deriving DecidableEq, Repr

/-- Modelled from the spec: `lc::document_symbols`, one record of the flat symbol list, with
1-based coordinates and a parent index into the same list (negative: no parent). -/
structure document_symbols where
  symbol_name : String
  first_line : Nat
  first_column : Nat
  last_line : Nat
  last_column : Nat
  filename : String
  parent_index : Int
  symbol_type : symbolType
deriving DecidableEq, Repr

/-- Modelled from the spec: the fields of `CompilerOptions` that the server reads or writes;
`rest` stands for everything else the argument parser derived. -/
structure CompilerOptions where
  line : String
  column : String
  continue_compilation : Bool
  include_dirs : List String
  rest : List String
deriving DecidableEq, Repr

/-- Modelled from the spec: the workspace configuration of one document. -/
structure LFortranLspConfig where
  flags : List String
  maxNumberOfProblems : Nat
deriving DecidableEq, Repr

/-- Modelled from the spec: an open document as held by the document store. -/
structure LspTextDocument where
  uri : DocumentUri
  path : String
  text : String
  version : Int
deriving DecidableEq, Repr

/-- Modelled from the spec: the protocol's diagnostic, with the members `validate` assigns. -/
structure Diagnostic where
  range : Range
  severity : Option DiagnosticSeverity
  message : String
  source : Option String
deriving DecidableEq, Repr

/-- Modelled from the spec: the parameters of `textDocument/publishDiagnostics`. -/
structure PublishDiagnosticsParams where
  uri : DocumentUri
  version : Option Int
  diagnostics : List Diagnostic
deriving DecidableEq, Repr

/-- Modelled from the spec: the protocol's location. -/
structure Location where
  uri : DocumentUri
  range : Range
deriving DecidableEq, Repr

/-- Modelled from the spec: the protocol's definition link, with the members `definition`
assigns. -/
structure DefinitionLink where
  targetUri : DocumentUri
  targetRange : Range
  targetSelectionRange : Range
deriving DecidableEq, Repr

/-- Modelled from the spec: the protocol's text edit. -/
structure TextEdit where
  range : Range
  newText : String
deriving DecidableEq, Repr

/-- Modelled from the spec: the protocol's workspace edit; `changes` is an optional map from
document URI to text edits. -/
structure WorkspaceEdit where
  changes : Option (List (DocumentUri × List TextEdit))
deriving DecidableEq, Repr

/-- Modelled from the spec: the flat document-symbol record. The handler default-constructs
it and assigns only `location`; `name` stays the empty string and `kind` stays unassigned (`none`). -/
structure SymbolInformation where
  name : String
  kind : Option SymbolKind
  location : Location
deriving DecidableEq, Repr

/-- Modelled from the spec: the hierarchical document-symbol node; `children` is an optional
vector of nodes. -/
inductive DocumentSymbol where
  | mk (name : String) (kind : SymbolKind) (range : Range) (selectionRange : Range)
      (children : Option (List DocumentSymbol))
deriving Repr

/-- Modelled from the spec: the alternatives of a `definition` result that the handler
produces. -/
inductive TextDocument_DefinitionResult where
  | links (value : List DefinitionLink)
  | locations (value : List Location)
  | null
deriving DecidableEq, Repr

/-- Modelled from the spec: the alternatives of a `rename` result. -/
inductive TextDocument_RenameResult where
  | workspaceEdit (value : WorkspaceEdit)
  | null
deriving DecidableEq, Repr

/-- Modelled from the spec: the alternatives of a `documentSymbol` result that the handler
produces. -/
inductive TextDocument_DocumentSymbolResult where
  | documentSymbols (value : List DocumentSymbol)
  | symbolInformations (value : List SymbolInformation)
deriving Repr

/-- Modelled from the spec: the client capabilities read by `receiveInitialize`. -/
structure DefinitionClientCapabilities where
  linkSupport : Option Bool
deriving DecidableEq, Repr

/-- Modelled from the spec: the client capabilities read by `receiveInitialize`. -/
structure DocumentSymbolClientCapabilities where
  hierarchicalDocumentSymbolSupport : Option Bool
deriving DecidableEq, Repr

/-- Modelled from the spec: the client capabilities read by `receiveInitialize`. -/
structure TextDocumentClientCapabilities where
  definition : Option DefinitionClientCapabilities
  documentSymbol : Option DocumentSymbolClientCapabilities
deriving DecidableEq, Repr

/-- Modelled from the spec: the client capabilities read by `receiveInitialize`. -/
structure ClientCapabilities where
  textDocument : Option TextDocumentClientCapabilities
deriving DecidableEq, Repr

/-- Modelled from the spec: the parameters of `initialize`. -/
structure InitializeParams where
  capabilities : ClientCapabilities
deriving DecidableEq, Repr

/-- Modelled from the spec: the three providers the server sets; each is an optional whose boolean alternative is
the only one this code writes. -/
structure ServerCapabilities where
  definitionProvider : Option Bool
  renameProvider : Option Bool
  documentSymbolProvider : Option Bool
deriving DecidableEq, Repr

/-- Modelled from the spec: the result of `initialize`. -/
structure InitializeResult where
  capabilities : ServerCapabilities
deriving DecidableEq, Repr

/-- Modelled from the spec: the parameters of `textDocument/definition`. -/
structure DefinitionParams where
  uri : DocumentUri
  position : Position
deriving DecidableEq, Repr

/-- Modelled from the spec: the parameters of `textDocument/rename`. -/
structure RenameParams where
  uri : DocumentUri
  position : Position
  newName : String
deriving DecidableEq, Repr

/-- Modelled from the spec: the parameters of `textDocument/documentSymbol`. -/
structure DocumentSymbolParams where
  uri : DocumentUri
deriving DecidableEq, Repr

/-- Modelled from the spec: the protocol's trace levels, in increasing order. -/
inductive TraceValues where
  | Off
  | Messages
  | Verbose
deriving DecidableEq, Repr

/-- The position of a trace level in the order `Off < Messages < Verbose`. -/
def TraceValues.toNat : TraceValues → Nat
  | .Off => 0
  | .Messages => 1
  | .Verbose => 2

/-- Modelled from the spec: the parameters of `$/logTrace`. -/
structure LogTraceParams where
  message : String
  verbose : Option String
deriving DecidableEq, Repr

/-- Modelled from the spec: a notification put on the channel to the client, by
`sendLogTrace` or by `sendTextDocument_publishDiagnostics`. -/
inductive Notification where
  | logTrace (params : LogTraceParams)
  | publishDiagnostics (params : PublishDiagnosticsParams)
deriving DecidableEq, Repr

/-! ## Collaborators and server state -/

/-- Modelled from the spec: the filesystem queries used by `resolve`.
`absoluteNormal p` is `fs::absolute(p).lexically_normal()`, `join d f` is `d / f` and
`pathExists p` is `fs::exists(p)`. The two queries of the operating system throw a
`std::filesystem::filesystem_error` when they fail: they return its `what()` then. -/
structure FileSystem where
  absoluteNormal : String → Except String String
  join : String → String → String
  pathExists : String → Except String Bool

/-- Modelled from the spec: the compiler front-end entry points (member `lfortran`). -/
structure LFortranAccessor where
  showErrors : String → String → CompilerOptions → Except Exception (List error_highlight)
  lookupName : String → String → CompilerOptions → Except Exception (List document_symbols)
  getAllOccurrences :
    String → String → CompilerOptions → Except Exception (List document_symbols)
  getSymbols : String → String → CompilerOptions → Except Exception (List document_symbols)

/-- Modelled from the spec: everything the server calls but does not own: the base class
(`getConfig`, `getDocument`, the base `receiveInitialize`, the member `trace`, the serializer
`toJsonString` applied to `transformer.publishDiagnosticsParamsToAny`), the command-line
parser (whose failure carries the message of the `LCompilersException`), the compiler, the
filesystem and the clock (`elapsedMilliseconds` is the `duration.count()` of a validation
task); `source` is the constant tag put on every diagnostic. The two senders of the base
class put their notification on the channel and return. -/
structure Environment where
  getConfig : DocumentUri → Except Exception LFortranLspConfig
  getDocument : DocumentUri → Except Exception LspTextDocument
  parse : List String → Except String CompilerOptions
  lfortran : LFortranAccessor
  fs : FileSystem
  source : String
  baseInitialize : InitializeParams → InitializeResult
  trace : TraceValues
  elapsedMilliseconds : Int
  toJsonString : PublishDiagnosticsParams → String

/-- The server members the handlers read and write. -/
structure LFortranLspLanguageServer where
  optionsByUri : List (DocumentUri × CompilerOptions)
  clientSupportsGotoDefinition : Bool
  clientSupportsGotoDefinitionLinks : Bool
  clientSupportsDocumentSymbols : Bool
  clientSupportsHierarchicalDocumentSymbols : Bool
deriving DecidableEq, Repr

/-- A session before `initialize`: empty cache, every capability flag false. -/
def LFortranLspLanguageServer.fresh : LFortranLspLanguageServer :=
  { optionsByUri := []
    clientSupportsGotoDefinition := false
    clientSupportsGotoDefinitionLinks := false
    clientSupportsDocumentSymbols := false
    clientSupportsHierarchicalDocumentSymbols := false }

/-! ## Maps and loops -/

/-- The C++ `map.find(key)`: the value stored under `key`, if any. -/
def mapFind {κ ν : Type} [DecidableEq κ] : List (κ × ν) → κ → Option ν
  | [], _ => none
  | (k, v) :: rest, key => if k = key then some v else mapFind rest key

/-- Replace the value stored under `key` (a no-op when the key is absent). -/
def mapReplace {κ ν : Type} [DecidableEq κ] : List (κ × ν) → κ → ν → List (κ × ν)
  | [], _, _ => []
  | (k, v) :: rest, key, value =>
    if k = key then (k, value) :: rest else (k, v) :: mapReplace rest key value

/-- Run `f` over a list, failing as soon as one element fails. -/
def optMapM {α β : Type} (f : α → Option β) : List α → Option (List β)
  | [] => some []
  | a :: rest =>
    match f a with
    | none => none
    | some b =>
      match optMapM f rest with
      | none => none
      | some bs => some (b :: bs)

/-- Run a throwing `f` over a list in order; the first exception aborts the loop. -/
def exceptMapM {α β : Type} (f : α → Except Exception β) : List α → Except Exception (List β)
  | [] => .ok []
  | a :: rest =>
    match f a with
    | .error e => .error e
    | .ok b =>
      match exceptMapM f rest with
      | .error e => .error e
      | .ok bs => .ok (b :: bs)

/-! ## The server's operations -/

def diagnosticLevelToLspSeverity : Level → DiagnosticSeverity
  | .Error => .Error
  | .Warning => .Warning
  | .Note => .Information
  | .Help => .Hint
  | .other _ => .Warning

def asrSymbolTypeToLspSymbolKind : symbolType → SymbolKind
  | .Module => .Module
  | .Function => .Function
  | .GenericProcedure => .Function
  | .CustomOperator => .Operator
  | .Struct => .Struct
  | .Enum => .Enum
  | .Variable => .Variable
  | .Class => .Class
  | .ClassProcedure => .Method
  | .Template => .TypeParameter
  | .other _ => .Function

def invalidateConfigCaches (s : LFortranLspLanguageServer) : LFortranLspLanguageServer :=
  { s with optionsByUri := [] }

def getLFortranConfig (env : Environment) (uri : DocumentUri) :
    Except Exception LFortranLspConfig :=
  env.getConfig uri

/-- The options lookup: a hit returns the cached entry; a miss assembles the arguments
(flags, then the document path), parses them, forces `continue_compilation`, probes the map
again and inserts. -/
def getCompilerOptions (env : Environment) (s : LFortranLspLanguageServer)
    (document : LspTextDocument) : Except Exception CompilerOptions × LFortranLspLanguageServer :=
  match mapFind s.optionsByUri document.uri with
  | some cached => (.ok cached, s)
  | none =>
    match getLFortranConfig env document.uri with
    | .error e => (.error e, s)
    | .ok config =>
      let argv := config.flags ++ [document.path]
      match env.parse argv with
      | .error what => (.error (.LspException .InvalidParams what), s)
      | .ok parsed =>
        let compilerOptions := { parsed with continue_compilation := true }
        match mapFind s.optionsByUri document.uri with
        | some cached => (.ok cached, s)
        | none =>
          (.ok compilerOptions,
            { s with optionsByUri := s.optionsByUri ++ [(document.uri, compilerOptions)] })

/-- The body of the loop in `validate`: the diagnostic built from one issue. -/
def buildDiagnostic (source : String) (highlight : error_highlight) : Diagnostic :=
  { range :=
      { start := { line := uintPred highlight.first_line
                   character := uintPred highlight.first_column }
        stop := { line := uintPred highlight.last_line
                  character := highlight.last_column } }
    severity := some (diagnosticLevelToLspSeverity highlight.severity)
    message := highlight.message
    source := some source }

/-- The value of `numProblems` when the loop in `validate` starts. -/
def numProblems (highlights : List error_highlight) (maxNumberOfProblems : Nat) : Nat :=
  let numProblems := maxNumberOfProblems % UINT_MOD
  if highlights.length < numProblems then highlights.length % UINT_MOD else numProblems

/-- The loop `for (i = 0; i < numProblems; ++i)` of `validate`, reading `highlights[i]`;
`none` is a read past the end of the vector. -/
def buildDiagnostics (source : String) (highlights : List error_highlight) (n : Nat) :
    Option (List Diagnostic) :=
  optMapM (fun i => (highlights[i]?).map (buildDiagnostic source)) (List.range n)

/-- How one validation task ends: it reached `sendTextDocument_publishDiagnostics(params)`;
or a thrown value was caught by a handler of the task; or a thrown value left the task; or
the loop read `highlights` past its end. -/
inductive ValidationOutcome where
  | published (params : PublishDiagnosticsParams)
  | caught (e : Exception)
  | escaped (e : Exception)
  | outOfBounds
deriving DecidableEq, Repr

/-- The two handlers of the task, both `catch (std::exception &e)`: a thrown value derived
from `std::exception` is caught (and logged), a thrown value of another type matches neither
handler and leaves the task. -/
def ValidationOutcome.ofThrown (e : Exception) : ValidationOutcome :=
  if e.isStdException then .caught e else .escaped e

/-- The block `if (trace >= TraceValues::Messages)` of the task: the trace notification sent
before the diagnostics, none when tracing is off; `verbose` is set at level `Verbose` only. -/
def traceNotifications (env : Environment) (params : PublishDiagnosticsParams) :
    List Notification :=
  if TraceValues.Messages.toNat ≤ env.trace.toNat then
    [.logTrace
      { message :=
          "Sending response \x27textDocument/publishDiagnostics\x27. " ++
            "Processing request took " ++ toString env.elapsedMilliseconds ++ "ms"
        verbose :=
          if TraceValues.Verbose.toNat ≤ env.trace.toNat then
            some ("Result: " ++ env.toJsonString params)
          else none }]
  else []

/-- The task that `validate` hands to the worker pool. The document is behind a shared
pointer: `snapshot` is its value when the task reads its attributes and until the compiler
is called, `later` its value from the return of the compiler on. `version` is an `int`
copied from the snapshot; `path` and `text` are used once, in the compiler call; `uri` is
declared as a reference (`const std::string &uri = document->uri()`) and is used twice after
the compiler call, where it reads the document as it is then. The third component lists the
notifications sent, in order. -/
def validateTask (env : Environment) (s : LFortranLspLanguageServer)
    (snapshot later : LspTextDocument) :
    ValidationOutcome × LFortranLspLanguageServer × List Notification :=
  match getCompilerOptions env s snapshot with
  | (.error e, s1) => (.ofThrown e, s1, [])
  | (.ok compilerOptions, s1) =>
    match env.lfortran.showErrors snapshot.path snapshot.text compilerOptions with
    | .error e => (.ofThrown e, s1, [])
    | .ok highlights =>
      match getLFortranConfig env later.uri with
      | .error e => (.ofThrown e, s1, [])
      | .ok config =>
        match buildDiagnostics env.source highlights
            (numProblems highlights config.maxNumberOfProblems) with
        | none => (.outOfBounds, s1, [])
        | some diagnostics =>
          let params : PublishDiagnosticsParams :=
            { uri := later.uri, version := some snapshot.version, diagnostics := diagnostics }
          (.published params, s1,
            traceNotifications env params ++ [.publishDiagnostics params])

/-- The validation task when the document does not change while the task runs: the task
holds the lock of the document from its first read to its end. -/
def validate (env : Environment) (s : LFortranLspLanguageServer) (document : LspTextDocument) :
    ValidationOutcome × LFortranLspLanguageServer × List Notification :=
  validateTask env s document document

def receiveInitialize (env : Environment) (s : LFortranLspLanguageServer)
    (params : InitializeParams) : InitializeResult × LFortranLspLanguageServer :=
  let result := env.baseInitialize params
  let s1 :=
    match params.capabilities.textDocument with
    | some textDocument =>
      let s2 :=
        match textDocument.definition with
        | some definition =>
          { s with
            clientSupportsGotoDefinition := true
            clientSupportsGotoDefinitionLinks :=
              definition.linkSupport.isSome && definition.linkSupport.getD false }
        | none => s
      match textDocument.documentSymbol with
      | some documentSymbols =>
        { s2 with
          clientSupportsDocumentSymbols := true
          clientSupportsHierarchicalDocumentSymbols :=
            documentSymbols.hierarchicalDocumentSymbolSupport.isSome &&
              documentSymbols.hierarchicalDocumentSymbolSupport.getD false }
      | none => s2
    | none => s
  let capabilities := result.capabilities
  let capabilities :=
    if s1.clientSupportsGotoDefinition then
      { capabilities with definitionProvider := some true }
    else capabilities
  let capabilities := { capabilities with renameProvider := some true }
  let capabilities :=
    if s1.clientSupportsDocumentSymbols then
      { capabilities with documentSymbolProvider := some true }
    else capabilities
  ({ result with capabilities := capabilities }, s1)

/-- The include-directory loop of `resolve`. -/
def resolveInclude (fs : FileSystem) (filename : String) : List String → Except Exception String
  | [] => .error (.LspException .InvalidParams ("File not found: " ++ filename))
  | includeDir :: rest =>
    match fs.absoluteNormal (fs.join includeDir filename) with
    | .error what => .error (.stdException what)
    | .ok path =>
      match fs.pathExists path with
      | .error what => .error (.stdException what)
      | .ok true => .ok path
      | .ok false => resolveInclude fs filename rest

/-- The path resolver. A `filesystem_error` thrown by `fs::absolute` or `fs::exists` is not
handled here: it leaves `resolve`. -/
def resolve (fs : FileSystem) (filename : String) (compilerOptions : CompilerOptions) :
    Except Exception String :=
  match fs.absoluteNormal filename with
  | .error what => .error (.stdException what)
  | .ok path =>
    match fs.pathExists path with
    | .error what => .error (.stdException what)
    | .ok true => .ok path
    | .ok false => resolveInclude fs filename compilerOptions.include_dirs

/-- The range written by `definition` and `rename`: both columns decremented. -/
def closedRange (symbol : document_symbols) : Range :=
  { start := { line := uintPred symbol.first_line, character := uintPred symbol.first_column }
    stop := { line := uintPred symbol.last_line, character := uintPred symbol.last_column } }

/-- The range written by `documentSymbol`: the end column is not decremented. -/
def symbolRange (symbol : document_symbols) : Range :=
  { start := { line := uintPred symbol.first_line, character := uintPred symbol.first_column }
    stop := { line := uintPred symbol.last_line, character := symbol.last_column } }

/-- The copy of the cached options with the 1-based cursor written into it. -/
def withCursor (cached : CompilerOptions) (pos : Position) : CompilerOptions :=
  { cached with
    line := toString (uintSucc pos.line)
    column := toString (uintSucc pos.character) }

/-- The body of the link loop of `definition`. -/
def definitionLink (fs : FileSystem) (compilerOptions : CompilerOptions)
    (symbol : document_symbols) : Except Exception DefinitionLink :=
  match resolve fs symbol.filename compilerOptions with
  | .error e => .error e
  | .ok path =>
    .ok { targetUri := "file://" ++ path
          targetRange := closedRange symbol
          targetSelectionRange := closedRange symbol }

/-- The body of the location loop of `definition`. -/
def definitionLocation (fs : FileSystem) (compilerOptions : CompilerOptions)
    (symbol : document_symbols) : Except Exception Location :=
  match resolve fs symbol.filename compilerOptions with
  | .error e => .error e
  | .ok path => .ok { uri := "file://" ++ path, range := closedRange symbol }

def receiveTextDocument_definition (env : Environment) (s : LFortranLspLanguageServer)
    (params : DefinitionParams) :
    Except Exception TextDocument_DefinitionResult × LFortranLspLanguageServer :=
  match env.getDocument params.uri with
  | .error e => (.error e, s)
  | .ok document =>
    match getCompilerOptions env s document with
    | (.error e, s1) => (.error e, s1)
    | (.ok cached, s1) =>
      let compilerOptions := withCursor cached params.position
      match env.lfortran.lookupName document.path document.text compilerOptions with
      | .error e => (.error e, s1)
      | .ok symbols =>
        if symbols.length > 0 then
          if s1.clientSupportsGotoDefinitionLinks then
            match exceptMapM (definitionLink env.fs compilerOptions) symbols with
            | .error e => (.error e, s1)
            | .ok links => (.ok (.links links), s1)
          else
            match exceptMapM (definitionLocation env.fs compilerOptions) symbols with
            | .error e => (.error e, s1)
            | .ok locations => (.ok (.locations locations), s1)
        else (.ok .null, s1)

/-- The body of the edit loop of `rename`. -/
def renameEdit (newName : String) (symbol : document_symbols) : TextEdit :=
  { range := closedRange symbol, newText := newName }

def receiveTextDocument_rename (env : Environment) (s : LFortranLspLanguageServer)
    (params : RenameParams) :
    Except Exception TextDocument_RenameResult × LFortranLspLanguageServer :=
  match env.getDocument params.uri with
  | .error e => (.error e, s)
  | .ok document =>
    match getCompilerOptions env s document with
    | (.error e, s1) => (.error e, s1)
    | (.ok cached, s1) =>
      let compilerOptions := withCursor cached params.position
      match env.lfortran.getAllOccurrences document.path document.text compilerOptions with
      | .error e => (.error e, s1)
      | .ok symbols =>
        if symbols.length > 0 then
          (.ok (.workspaceEdit
            { changes := some [(params.uri, symbols.map (renameEdit params.newName))] }), s1)
        else (.ok .null, s1)

/-- A `const lc::document_symbols *` pointing into `symbols`: the index of the element and
the element itself. Two pointers are equal exactly when their indices are. -/
abbrev SymbolPtr := Nat × document_symbols

/-- The two containers filled by the first loop of the hierarchical branch. -/
structure SymbolIndex where
  childrenBySymbol : List (Nat × List SymbolPtr)
  roots : List SymbolPtr
deriving DecidableEq, Repr

/-- Find or create the children vector of `parent`, then `push_back` the symbol. -/
def pushChild (childrenBySymbol : List (Nat × List SymbolPtr)) (parent : Nat)
    (symbol : SymbolPtr) : List (Nat × List SymbolPtr) :=
  match mapFind childrenBySymbol parent with
  | some children => mapReplace childrenBySymbol parent (children ++ [symbol])
  | none => childrenBySymbol ++ [(parent, [symbol])]

/-- The first loop of the hierarchical branch, from the symbol at index `i` on; `rest` is the
part of `symbols` not yet visited. `symbols.at` throws `std::out_of_range`. -/
def indexLoop (fs : FileSystem) (document : LspTextDocument) (compilerOptions : CompilerOptions)
    (symbols : List document_symbols) :
    Nat → List document_symbols → SymbolIndex → Except Exception SymbolIndex
  | _, [], index => .ok index
  | i, symbol :: rest, index =>
    match resolve fs symbol.filename compilerOptions with
    | .error e => .error e
    | .ok resolved =>
      if document.path = resolved then
        if symbol.parent_index ≥ 0 then
          match symbols[symbol.parent_index.toNat]? with
          | none => .error (.stdException "vector::at: index out of range")
          | some _ =>
            indexLoop fs document compilerOptions symbols (i + 1) rest
              { index with
                childrenBySymbol :=
                  pushChild index.childrenBySymbol symbol.parent_index.toNat (i, symbol) }
        else
          indexLoop fs document compilerOptions symbols (i + 1) rest
            { index with roots := index.roots ++ [(i, symbol)] }
      else indexLoop fs document compilerOptions symbols (i + 1) rest index

/-- The node that `init` writes into a default-constructed `DocumentSymbol`. -/
def init (asrSymbol : document_symbols) : DocumentSymbol :=
  .mk asrSymbol.symbol_name (asrSymbolTypeToLspSymbolKind asrSymbol.symbol_type)
    (symbolRange asrSymbol) (symbolRange asrSymbol) none

/-- Assign the `children` member of a node. -/
def DocumentSymbol.emplaceChildren : DocumentSymbol → List DocumentSymbol → DocumentSymbol
  | .mk name kind range selectionRange _, children =>
    .mk name kind range selectionRange (some children)

/-- The recursive `walk`, with the recursion depth bounded by the first argument: `none`
means the bound was reached before the recursion ended. -/
def walk (childrenBySymbol : List (Nat × List SymbolPtr)) :
    Nat → SymbolPtr → DocumentSymbol → Option DocumentSymbol
  | 0, _, _ => none
  | fuel + 1, root, symbol =>
    match mapFind childrenBySymbol root.1 with
    | some nodes =>
      match optMapM (fun node => walk childrenBySymbol fuel node (init node.2)) nodes with
      | none => none
      | some children => some (symbol.emplaceChildren children)
    | none => some symbol

/-- The body of the loop of the flat branch of `documentSymbol`. -/
def symbolInformation (fs : FileSystem) (compilerOptions : CompilerOptions)
    (symbol : document_symbols) : Except Exception SymbolInformation :=
  match resolve fs symbol.filename compilerOptions with
  | .error e => .error e
  | .ok path =>
    .ok { name := "", kind := none
          location := { uri := "file://" ++ path, range := symbolRange symbol } }

/-- The handler of `textDocument/documentSymbol`. The outer `Option` is `none` when `walk`
does not return within a recursion depth of `symbols.length`. -/
def receiveTextDocument_documentSymbol (env : Environment) (s : LFortranLspLanguageServer)
    (params : DocumentSymbolParams) :
    Option (Except Exception TextDocument_DocumentSymbolResult) × LFortranLspLanguageServer :=
  match env.getDocument params.uri with
  | .error e => (some (.error e), s)
  | .ok document =>
    match getCompilerOptions env s document with
    | (.error e, s1) => (some (.error e), s1)
    | (.ok compilerOptions, s1) =>
      match env.lfortran.getSymbols document.path document.text compilerOptions with
      | .error e => (some (.error e), s1)
      | .ok symbols =>
        if s1.clientSupportsHierarchicalDocumentSymbols then
          match indexLoop env.fs document compilerOptions symbols 0 symbols
              { childrenBySymbol := [], roots := [] } with
          | .error e => (some (.error e), s1)
          | .ok index =>
            match optMapM
                (fun root => walk index.childrenBySymbol symbols.length root (init root.2))
                index.roots with
            | none => (none, s1)
            | some documentSymbols => (some (.ok (.documentSymbols documentSymbols)), s1)
        else
          match exceptMapM (symbolInformation env.fs compilerOptions) symbols with
          | .error e => (some (.error e), s1)
          | .ok infos => (some (.ok (.symbolInformations infos)), s1)

/-! ## Specification vocabulary -/

/-- A forest of symbol indices: the shape of a hierarchical result, each node labelled with
the index of the symbol it stands for. -/
inductive IndexTree where
  | node (index : Nat) (children : List IndexTree)
deriving Repr

def IndexTree.index : IndexTree → Nat
  | .node i _ => i

def IndexTree.children : IndexTree → List IndexTree
  | .node _ children => children

mutual
/-- The indices of a tree in pre-order. -/
def IndexTree.preorder : IndexTree → List Nat
  | .node i children => i :: IndexTree.preorderList children
/-- The indices of a forest in pre-order. -/
def IndexTree.preorderList : List IndexTree → List Nat
  | [] => []
  | tree :: rest => tree.preorder ++ IndexTree.preorderList rest
end

mutual
/-- Every node of the tree, at every depth (the tree itself included). -/
def IndexTree.nodes : IndexTree → List IndexTree
  | .node i children => .node i children :: IndexTree.nodesList children
/-- Every node of the forest, at every depth. -/
def IndexTree.nodesList : List IndexTree → List IndexTree
  | [] => []
  | tree :: rest => tree.nodes ++ IndexTree.nodesList rest
end

mutual
/-- The protocol node an index tree stands for: each node carries the name, mapped kind and
range of its own symbol, and a node without children has no children list. -/
def IndexTree.render (symbols : List document_symbols) : IndexTree → Option DocumentSymbol
  | .node i children =>
    match symbols[i]? with
    | none => none
    | some symbol =>
      match children with
      | [] => some (init symbol)
      | child :: rest =>
        match IndexTree.renderList symbols (child :: rest) with
        | none => none
        | some rendered => some ((init symbol).emplaceChildren rendered)
/-- The rendering of a forest. -/
def IndexTree.renderList (symbols : List document_symbols) :
    List IndexTree → Option (List DocumentSymbol)
  | [] => some []
  | tree :: rest =>
    match tree.render symbols with
    | none => none
    | some first =>
      match IndexTree.renderList symbols rest with
      | none => none
      | some others => some (first :: others)
end

/-- The indices, in list order, of the symbols without a parent. -/
def rootIndices (symbols : List document_symbols) : List Nat :=
  (symbols.enum.filter (fun entry => decide (entry.2.parent_index < 0))).map Prod.fst

/-- The indices, in list order, of the symbols whose parent index is `parent`. -/
def childIndices (symbols : List document_symbols) (parent : Nat) : List Nat :=
  (symbols.enum.filter (fun entry => decide (entry.2.parent_index = (parent : Int)))).map
    Prod.fst

/-- Following parent indices from symbol `i` arrives, after exactly `d` steps, at a symbol
without a parent. -/
def reachesRootIn (symbols : List document_symbols) : Nat → Nat → Bool
  | 0, i =>
    match symbols[i]? with
    | some symbol => decide (symbol.parent_index < 0)
    | none => false
  | d + 1, i =>
    match symbols[i]? with
    | some symbol =>
      decide (0 ≤ symbol.parent_index) && reachesRootIn symbols d symbol.parent_index.toNat
    | none => false

/-- The symbol is kept by the filter of the hierarchical branch: its filename resolves to the
path of the requesting document. -/
def isKept (fs : FileSystem) (document : LspTextDocument) (compilerOptions : CompilerOptions)
    (symbol : document_symbols) : Bool :=
  match resolve fs symbol.filename compilerOptions with
  | .ok resolved => decide (document.path = resolved)
  | .error _ => false

/-- The client declared `textDocument.definition`. -/
def declaresDefinition (params : InitializeParams) : Bool :=
  match params.capabilities.textDocument with
  | some textDocument => textDocument.definition.isSome
  | none => false

/-- The client declared `textDocument.definition` with `linkSupport` present and true. -/
def declaresDefinitionLinks (params : InitializeParams) : Bool :=
  match params.capabilities.textDocument with
  | some textDocument =>
    match textDocument.definition with
    | some definition => decide (definition.linkSupport = some true)
    | none => false
  | none => false

/-- The client declared `textDocument.documentSymbol`. -/
def declaresDocumentSymbol (params : InitializeParams) : Bool :=
  match params.capabilities.textDocument with
  | some textDocument => textDocument.documentSymbol.isSome
  | none => false

/-- The client declared `textDocument.documentSymbol` with
`hierarchicalDocumentSymbolSupport` present and true. -/
def declaresHierarchicalSymbols (params : InitializeParams) : Bool :=
  match params.capabilities.textDocument with
  | some textDocument =>
    match textDocument.documentSymbol with
    | some documentSymbol =>
      decide (documentSymbol.hierarchicalDocumentSymbolSupport = some true)
    | none => false
  | none => false

/-! ## Vocabulary of the proofs about the hierarchical build -/

/-- The entry is a kept symbol without a parent. -/
def keptRoot (fs : FileSystem) (document : LspTextDocument) (compilerOptions : CompilerOptions)
    (entry : SymbolPtr) : Bool :=
  isKept fs document compilerOptions entry.2 && decide (entry.2.parent_index < 0)

/-- The entry is a kept symbol whose parent index is `parent`. -/
def keptChild (fs : FileSystem) (document : LspTextDocument) (compilerOptions : CompilerOptions)
    (parent : Nat) (entry : SymbolPtr) : Bool :=
  isKept fs document compilerOptions entry.2 && decide (entry.2.parent_index = (parent : Int))

/-- The kept symbols whose parent index is `parent`, in list order, each with its index. -/
def keptChildren (fs : FileSystem) (document : LspTextDocument)
    (compilerOptions : CompilerOptions) (symbols : List document_symbols) (parent : Nat) :
    List SymbolPtr :=
  symbols.enum.filter (keptChild fs document compilerOptions parent)

/-- A children vector after more symbols were pushed onto it; no vector is created when
nothing is pushed. -/
def mergeChildren (old : Option (List SymbolPtr)) (extra : List SymbolPtr) :
    Option (List SymbolPtr) :=
  match extra with
  | [] => old
  | _ :: _ => some (old.getD [] ++ extra)

/-- The symbol reached from `j` by following `a` parent indices. -/
def ancestor (symbols : List document_symbols) : Nat → Nat → Option Nat
  | 0, j => some j
  | a + 1, j =>
    match symbols[j]? with
    | some symbol =>
      if 0 ≤ symbol.parent_index then ancestor symbols a symbol.parent_index.toNat else none
    | none => none

/-- The chain of symbols from `i` up through `d` parent indices. -/
def parentChain (symbols : List document_symbols) : Nat → Nat → List Nat
  | 0, i => [i]
  | d + 1, i =>
    match symbols[i]? with
    | some symbol => i :: parentChain symbols d symbol.parent_index.toNat
    | none => [i]

/-- What the proofs establish about the index tree of a `walk` that starts at a kept symbol
at depth `d` (the symbol reaches a parentless symbol in exactly `d` steps). -/
structure GoodTree (fs : FileSystem) (document : LspTextDocument)
    (compilerOptions : CompilerOptions) (symbols : List document_symbols) (d : Nat)
    (tree : IndexTree) : Prop where
  children : ∀ u ∈ tree.nodes,
    u.children.map IndexTree.index
      = (keptChildren fs document compilerOptions symbols u.index).map Prod.fst
  kept : ∀ j ∈ tree.preorder,
    ∃ symbol, symbols[j]? = some symbol ∧ isKept fs document compilerOptions symbol = true
  depth : ∀ j ∈ tree.preorder,
    ∃ a, reachesRootIn symbols (d + a) j = true ∧ ancestor symbols a j = some tree.index
  nodup : tree.preorder.Nodup
  closed : ∀ j ∈ tree.preorder,
    ∀ c ∈ keptChildren fs document compilerOptions symbols j, c.1 ∈ tree.preorder

/-! ## A concrete workspace -/

namespace Example

/-- A filesystem holding `/w/a.f90` and `/w/inc/b.f90`; relative names are taken in `/w`,
and the empty name has no absolute path: `fs::absolute("")` throws. -/
def fs : FileSystem :=
  { absoluteNormal := fun p =>
      if p = "" then .error "filesystem error: cannot make absolute path: Invalid argument"
      else .ok ("/w/" ++ p)
    join := fun d f => d ++ "/" ++ f
    pathExists := fun p => .ok (p == "/w/a.f90" || p == "/w/inc/b.f90") }

/-- What the argument parser derives: the include directory `inc`, the arguments kept. -/
def parsed (argv : List String) : CompilerOptions :=
  { line := "", column := "", continue_compilation := false, include_dirs := ["inc"]
    rest := argv }

def document : LspTextDocument :=
  { uri := "file:///w/a.f90", path := "/w/a.f90", text := "program a", version := 7 }

/-- The options cached for `document` after the first lookup. -/
def options : CompilerOptions :=
  { line := "", column := "", continue_compilation := true, include_dirs := ["inc"]
    rest := ["-c", "/w/a.f90"] }

/-- A workspace whose compiler reports `highlights` and `symbols` for every query and whose
configuration allows three problems. -/
def env (highlights : List error_highlight) (symbols : List document_symbols) : Environment :=
  { getConfig := fun _ => .ok { flags := ["-c"], maxNumberOfProblems := 3 }
    getDocument := fun _ => .ok document
    parse := fun argv => .ok (parsed argv)
    lfortran :=
      { showErrors := fun _ _ _ => .ok highlights
        lookupName := fun _ _ _ => .ok symbols
        getAllOccurrences := fun _ _ _ => .ok symbols
        getSymbols := fun _ _ _ => .ok symbols }
    fs := fs
    source := "lfortran"
    baseInitialize := fun _ =>
      { capabilities :=
          { definitionProvider := none, renameProvider := none
            documentSymbolProvider := none } }
    trace := .Off
    elapsedMilliseconds := 12
    toJsonString := fun params => "\"" ++ params.uri ++ "\"" }

/-- The state after the first options lookup for `document`. -/
def cached : LFortranLspLanguageServer :=
  { LFortranLspLanguageServer.fresh with optionsByUri := [(document.uri, options)] }

/-- The issue number `k` of the ten issues used below. -/
def issue (k : Nat) : error_highlight :=
  { message := "issue", first_line := k + 1, first_column := 2, last_line := k + 1
    last_column := 9, severity := .Error }

def tenIssues : List error_highlight := (List.range 10).map issue

def symbol (name filename : String) (parent : Int) : document_symbols :=
  { symbol_name := name, first_line := 3, first_column := 5, last_line := 4, last_column := 8
    filename := filename, parent_index := parent, symbol_type := .Function }

/-- A client that declares no capability at all. -/
def noCapabilities : InitializeParams :=
  { capabilities := { textDocument := none } }

/-- A session whose client accepts hierarchical document symbols. -/
def hierarchical : LFortranLspLanguageServer :=
  { LFortranLspLanguageServer.fresh with clientSupportsHierarchicalDocumentSymbols := true }

/-- The hierarchical session after the first options lookup for `document`. -/
def hierarchicalCached : LFortranLspLanguageServer :=
  { hierarchical with optionsByUri := [(document.uri, options)] }

/-- A root at index 0 and its child at index 1, both in the document. -/
def rootAndChild : List document_symbols :=
  [symbol "root" "a.f90" (-1), symbol "child" "a.f90" 0]

/-- One symbol of the document and one of the included file `b.f90`. -/
def twoFiles : List document_symbols :=
  [symbol "here" "a.f90" (-1), symbol "elsewhere" "b.f90" (-1)]

/-- The protocol range of every `symbol` above in a document-symbol result. -/
def outlineRange : Range :=
  { start := { line := 2, character := 4 }, stop := { line := 3, character := 8 } }

/-- The protocol range of every `symbol` above in a definition or rename result. -/
def closed : Range :=
  { start := { line := 2, character := 4 }, stop := { line := 3, character := 7 } }

/-- The options of `document` with the cursor of a request at line 0, character 0. -/
def atOrigin : CompilerOptions :=
  { options with line := "1", column := "1" }

def definitionParams : DefinitionParams :=
  { uri := "file:///w/a.f90", position := { line := 0, character := 0 } }

def renameParams : RenameParams :=
  { uri := "file:///w/a.f90", position := { line := 0, character := 0 }, newName := "renamed" }

def symbolParams : DocumentSymbolParams :=
  { uri := "file:///w/a.f90" }

end Example

/-! ## Vocabulary of the cache, resolver and validation claims -/

/-- How many entries the map holds under `key`. -/
def mapCount {κ ν : Type} [DecidableEq κ] (m : List (κ × ν)) (key : κ) : Nat :=
  (m.filter (fun entry => decide (entry.1 = key))).length

/-- The diagnostics notifications among the notifications sent, in order. -/
def publishedDiagnostics : List Notification → List PublishDiagnosticsParams
  | [] => []
  | .publishDiagnostics params :: rest => params :: publishedDiagnostics rest
  | .logTrace _ :: rest => publishedDiagnostics rest

namespace Example

/-- Two occurrences of one name: one in the document, one in the included file `b.f90`. -/
def spanning : List document_symbols :=
  [{ symbol_name := "x", first_line := 3, first_column := 5, last_line := 3, last_column := 5
     filename := "a.f90", parent_index := -1, symbol_type := .Variable },
   { symbol_name := "x", first_line := 10, first_column := 1, last_line := 10, last_column := 1
     filename := "b.f90", parent_index := -1, symbol_type := .Variable }]

/-- A workspace like `env` whose argument parser rejects every argument list. -/
def rejecting : Environment :=
  { env [] [] with parse := fun _ => .error "unknown option" }

/-- A workspace like `env` whose compiler throws a `std::runtime_error` while collecting
errors. -/
def throwing : Environment :=
  { env [] [] with
    lfortran :=
      { (env [] []).lfortran with showErrors := fun _ _ _ => .error (.stdException "boom") } }

/-- A workspace like `env` whose compiler, while collecting errors, throws a value of a class
that does not derive from `std::exception`. -/
def aborting : Environment :=
  { env [] [] with
    lfortran :=
      { (env [] []).lfortran with
        showErrors := fun _ _ _ => .error (.nonStandard "SemanticAbort") } }

/-- A workspace like `env` whose compiler answers name lookup only: the occurrence search
and the symbol table throw. -/
def lookupOnly (symbols : List document_symbols) : Environment :=
  { env [] symbols with
    lfortran :=
      { (env [] symbols).lfortran with
        getAllOccurrences := fun _ _ _ => .error (.stdException "unavailable")
        getSymbols := fun _ _ _ => .error (.stdException "unavailable") } }

/-- A workspace like `env` whose compiler answers the symbol table only: name lookup and
the occurrence search throw. -/
def symbolsOnly (symbols : List document_symbols) : Environment :=
  { env [] symbols with
    lfortran :=
      { (env [] symbols).lfortran with
        lookupName := fun _ _ _ => .error (.stdException "unavailable")
        getAllOccurrences := fun _ _ _ => .error (.stdException "unavailable") } }

/-- A workspace like `env` with the trace level `Verbose`. -/
def tracing (highlights : List error_highlight) : Environment :=
  { env highlights [] with trace := .Verbose }

end Example

/-! ## Vocabulary of the claims about hierarchical nodes -/

def DocumentSymbol.name : DocumentSymbol → String
  | .mk name _ _ _ _ => name

def DocumentSymbol.kind : DocumentSymbol → SymbolKind
  | .mk _ kind _ _ _ => kind

def DocumentSymbol.range : DocumentSymbol → Range
  | .mk _ _ range _ _ => range

def DocumentSymbol.selectionRange : DocumentSymbol → Range
  | .mk _ _ _ selectionRange _ => selectionRange

def DocumentSymbol.children : DocumentSymbol → Option (List DocumentSymbol)
  | .mk _ _ _ _ children => children

mutual
/-- Every node of a hierarchical result tree, at every depth (the tree itself included). -/
def DocumentSymbol.nodes : DocumentSymbol → List DocumentSymbol
  | .mk name kind range selectionRange none => [.mk name kind range selectionRange none]
  | .mk name kind range selectionRange (some children) =>
    .mk name kind range selectionRange (some children) :: DocumentSymbol.nodesList children
/-- Every node of a list of hierarchical result trees, at every depth. -/
def DocumentSymbol.nodesList : List DocumentSymbol → List DocumentSymbol
  | [] => []
  | tree :: rest => tree.nodes ++ DocumentSymbol.nodesList rest
end

namespace Example

/-- A workspace like `env` after the configuration changed to other flags. -/
def reconfigured : Environment :=
  { env [] [] with getConfig := fun _ => .ok { flags := ["-O2"], maxNumberOfProblems := 5 } }

/-- The hierarchical result for `rootAndChild`. -/
def outline : List DocumentSymbol :=
  [.mk "root" .Function outlineRange outlineRange
    (some [.mk "child" .Function outlineRange outlineRange none])]

end Example

/-! ## Vocabulary of the claims about omitted symbols -/

/-- Symbol `i` is kept, every symbol on its chain of parents is kept, and the chain arrives,
after exactly `d` steps, at a symbol without a parent. -/
def keptChainIn (fs : FileSystem) (document : LspTextDocument)
    (compilerOptions : CompilerOptions) (symbols : List document_symbols) : Nat → Nat → Bool
  | 0, i =>
    match symbols[i]? with
    | some symbol =>
      isKept fs document compilerOptions symbol && decide (symbol.parent_index < 0)
    | none => false
  | d + 1, i =>
    match symbols[i]? with
    | some symbol =>
      isKept fs document compilerOptions symbol && decide (0 ≤ symbol.parent_index) &&
        keptChainIn fs document compilerOptions symbols d symbol.parent_index.toNat
    | none => false

namespace Example

/-- Two symbols that name each other as parent, a parentless symbol, and a symbol that names
itself as parent; all in the document, all parent indices in range. -/
def cyclic : List document_symbols :=
  [symbol "a" "a.f90" 1, symbol "b" "a.f90" 0, symbol "top" "a.f90" (-1),
    symbol "self" "a.f90" 3]

/-- A symbol of the document whose parent (index 1) is a symbol of the included file. -/
def orphaned : List document_symbols :=
  [symbol "here" "a.f90" (-1), symbol "elsewhere" "b.f90" (-1), symbol "orphan" "a.f90" 1]

/-- A symbol of the document whose parent index (5) is past the end of the list. -/
def dangling : List document_symbols :=
  [symbol "here" "a.f90" (-1), symbol "lost" "a.f90" 5]

end Example

/-! ## Theorems -/


theorem uintPred_of_pos (x : Nat) (h1 : 1 ≤ x) (h2 : x < UINT_MOD) : uintPred x = x - 1 := by
  unfold uintPred UINT_MOD at *
  omega

theorem optMapM_eq_some_iff {α β : Type} (f : α → Option β) (l : List α) (r : List β) :
    optMapM f l = some r ↔ l.map f = r.map some := by
  induction l generalizing r with
  | nil => cases r <;> simp [optMapM]
  | cons a rest ih =>
    cases hfa : f a with
    | none => cases r <;> simp [optMapM, hfa]
    | some b =>
      cases hrest : optMapM f rest with
      | none =>
        cases r with
        | nil => simp [optMapM, hfa, hrest]
        | cons b2 r2 =>
          have := (ih r2).not.mp (by simp [hrest])
          simp [optMapM, hfa, hrest, this]
      | some bs =>
        have h := (ih bs).mp hrest
        cases r with
        | nil => simp [optMapM, hfa, hrest]
        | cons b2 r2 =>
          simp only [optMapM, hfa, hrest, List.map_cons, Option.some.injEq, List.cons.injEq, h]
          constructor
          · rintro ⟨rfl, rfl⟩; exact ⟨rfl, rfl⟩
          · rintro ⟨rfl, h2⟩
            refine ⟨rfl, ?_⟩
            exact List.map_injective_iff.mpr (Option.some_injective _) h2

theorem numProblems_le (highlights : List error_highlight) (m : Nat) :
    numProblems highlights m ≤ highlights.length := by
  unfold numProblems
  simp only
  split
  · exact Nat.mod_le _ _
  · omega

theorem numProblems_eq_min (highlights : List error_highlight) (m : Nat) (hm : m < UINT_MOD) :
    numProblems highlights m = min highlights.length m := by
  unfold numProblems
  simp only [Nat.mod_eq_of_lt hm]
  split
  · rename_i h
    rw [Nat.mod_eq_of_lt (by omega)]
    omega
  · omega

theorem buildDiagnostics_eq (source : String) (highlights : List error_highlight) (n : Nat)
    (hn : n ≤ highlights.length) :
    buildDiagnostics source highlights n
      = some ((highlights.take n).map (buildDiagnostic source)) := by
  unfold buildDiagnostics
  rw [optMapM_eq_some_iff]
  apply List.ext_getElem?
  intro k
  simp only [List.getElem?_map, List.getElem?_range, List.getElem?_take]
  by_cases hk : k < n
  · have : k < highlights.length := by omega
    simp [hk, List.getElem?_range, this]
  · simp [hk, List.getElem?_range]
    omega

theorem validateTask_eq_published (env : Environment) (s s1 : LFortranLspLanguageServer)
    (snapshot later : LspTextDocument) (compilerOptions : CompilerOptions)
    (highlights : List error_highlight) (config : LFortranLspConfig)
    (hopts : getCompilerOptions env s snapshot = (.ok compilerOptions, s1))
    (herr : env.lfortran.showErrors snapshot.path snapshot.text compilerOptions = .ok highlights)
    (hcfg : getLFortranConfig env later.uri = .ok config) :
    validateTask env s snapshot later =
      (.published
        { uri := later.uri
          version := some snapshot.version
          diagnostics :=
            (highlights.take (numProblems highlights config.maxNumberOfProblems)).map
              (buildDiagnostic env.source) },
        s1,
        traceNotifications env
            { uri := later.uri
              version := some snapshot.version
              diagnostics :=
                (highlights.take (numProblems highlights config.maxNumberOfProblems)).map
                  (buildDiagnostic env.source) } ++
          [.publishDiagnostics
            { uri := later.uri
              version := some snapshot.version
              diagnostics :=
                (highlights.take (numProblems highlights config.maxNumberOfProblems)).map
                  (buildDiagnostic env.source) }]) := by
  unfold validateTask
  simp only [hopts, herr, hcfg,
    buildDiagnostics_eq env.source highlights _ (numProblems_le highlights _)]

theorem validate_eq_published (env : Environment) (s s1 : LFortranLspLanguageServer)
    (document : LspTextDocument) (compilerOptions : CompilerOptions)
    (highlights : List error_highlight) (config : LFortranLspConfig)
    (hopts : getCompilerOptions env s document = (.ok compilerOptions, s1))
    (herr : env.lfortran.showErrors document.path document.text compilerOptions = .ok highlights)
    (hcfg : getLFortranConfig env document.uri = .ok config) :
    (validate env s document).1 =
      .published
        { uri := document.uri
          version := some document.version
          diagnostics :=
            (highlights.take (numProblems highlights config.maxNumberOfProblems)).map
              (buildDiagnostic env.source) } := by
  unfold validate
  rw [validateTask_eq_published env s s1 document document compilerOptions highlights config
    hopts herr hcfg]

/-- C1: when the compiler options, the error collection and the configuration are obtained,
every issue `highlights[i]` below the problem count, with 1-based coordinates
`(L1, C1, L2, C2)` (lines and start column at least 1, all of them 32-bit), is published as the
`i`-th diagnostic with range start `(L1 - 1, C1 - 1)` and range end `(L2 - 1, C2)`: the end
column is not decremented. -/
theorem validate_diagnostic_range (env : Environment) (s s1 : LFortranLspLanguageServer)
    (document : LspTextDocument) (compilerOptions : CompilerOptions)
    (highlights : List error_highlight) (config : LFortranLspConfig)
    (i : Nat) (highlight : error_highlight)
    (hopts : getCompilerOptions env s document = (.ok compilerOptions, s1))
    (herr : env.lfortran.showErrors document.path document.text compilerOptions = .ok highlights)
    (hcfg : getLFortranConfig env document.uri = .ok config)
    (hi : i < numProblems highlights config.maxNumberOfProblems)
    (hget : highlights[i]? = some highlight)
    (hL1 : 1 ≤ highlight.first_line ∧ highlight.first_line < UINT_MOD)
    (hC1 : 1 ≤ highlight.first_column ∧ highlight.first_column < UINT_MOD)
    (hL2 : 1 ≤ highlight.last_line ∧ highlight.last_line < UINT_MOD) :
    ∃ params diagnostic,
      (validate env s document).1 = .published params ∧
      params.diagnostics[i]? = some diagnostic ∧
      diagnostic.range =
        { start := { line := highlight.first_line - 1, character := highlight.first_column - 1 }
          stop := { line := highlight.last_line - 1, character := highlight.last_column } } := by
  rw [validate_eq_published env s s1 document compilerOptions highlights config hopts herr hcfg]
  refine ⟨_, buildDiagnostic env.source highlight, rfl, ?_, ?_⟩
  · simp [List.getElem?_map, List.getElem?_take, hi, hget]
  · simp [buildDiagnostic, uintPred_of_pos _ hL1.1 hL1.2, uintPred_of_pos _ hC1.1 hC1.2,
      uintPred_of_pos _ hL2.1 hL2.2]

/-- C3: when the compiler options are obtained, `showErrors` returns `n` issues and the
configured maximum problem count is `m` (an unsigned 32-bit value), the task publishes exactly
`min n m` diagnostics, the `i`-th of which is built from the `i`-th issue; in particular no
issue is read past the end of the list. -/
theorem validate_publishes_first_min (env : Environment) (s s1 : LFortranLspLanguageServer)
    (document : LspTextDocument) (compilerOptions : CompilerOptions)
    (highlights : List error_highlight) (config : LFortranLspConfig)
    (hopts : getCompilerOptions env s document = (.ok compilerOptions, s1))
    (herr : env.lfortran.showErrors document.path document.text compilerOptions = .ok highlights)
    (hcfg : getLFortranConfig env document.uri = .ok config)
    (hm : config.maxNumberOfProblems < UINT_MOD) :
    ∃ params,
      (validate env s document).1 = .published params ∧
      params.diagnostics.length = min highlights.length config.maxNumberOfProblems ∧
      ∀ i, i < min highlights.length config.maxNumberOfProblems →
        ∃ highlight, highlights[i]? = some highlight ∧
          params.diagnostics[i]? = some (buildDiagnostic env.source highlight) := by
  rw [validate_eq_published env s s1 document compilerOptions highlights config hopts herr hcfg]
  refine ⟨_, rfl, ?_, ?_⟩
  · simp [numProblems_eq_min highlights _ hm]
  · intro i hi
    have hlen : i < highlights.length := by omega
    refine ⟨highlights[i], by simp [hlen], ?_⟩
    simp [List.getElem?_map, List.getElem?_take, numProblems_eq_min highlights _ hm, hi, hlen]

theorem exceptMapM_ok_iff {α β : Type} (f : α → Except Exception β) (l : List α) (r : List β) :
    exceptMapM f l = .ok r ↔ l.map f = r.map .ok := by
  induction l generalizing r with
  | nil => cases r <;> simp [exceptMapM]
  | cons a rest ih =>
    cases hfa : f a with
    | error e => cases r <;> simp [exceptMapM, hfa]
    | ok b =>
      cases hrest : exceptMapM f rest with
      | error e =>
        cases r with
        | nil => simp [exceptMapM, hfa, hrest]
        | cons b2 r2 =>
          have := (ih r2).not.mp (by simp [hrest])
          simp [exceptMapM, hfa, hrest, this]
      | ok bs =>
        have h := (ih bs).mp hrest
        cases r with
        | nil => simp [exceptMapM, hfa, hrest]
        | cons b2 r2 =>
          simp only [exceptMapM, hfa, hrest, List.map_cons, Except.ok.injEq, List.cons.injEq, h]
          constructor
          · rintro ⟨rfl, rfl⟩; exact ⟨rfl, rfl⟩
          · rintro ⟨rfl, h2⟩
            refine ⟨rfl, ?_⟩
            have hinj : Function.Injective (Except.ok : β → Except Exception β) := by
              intro x y hxy
              exact Except.ok.inj hxy
            exact List.map_injective_iff.mpr hinj h2

theorem exceptMapM_ok_getElem {α β : Type} (f : α → Except Exception β) (l : List α)
    (r : List β) (h : exceptMapM f l = .ok r) :
    r.length = l.length ∧
      ∀ (i : Nat) (a : α), l[i]? = some a → ∃ b, r[i]? = some b ∧ f a = .ok b := by
  rw [exceptMapM_ok_iff] at h
  constructor
  · have := congrArg List.length h
    simpa using this.symm
  · intro i a hia
    have := congrArg (fun x => x[i]?) h
    simp only [List.getElem?_map, hia, Option.map_some'] at this
    cases hri : r[i]? with
    | none => simp [hri] at this
    | some b =>
      refine ⟨b, rfl, ?_⟩
      simpa [hri] using this

theorem exceptMapM_total {α β : Type} (f : α → Except Exception β) (l : List α)
    (h : ∀ a ∈ l, ∃ b, f a = .ok b) : ∃ r, exceptMapM f l = .ok r := by
  induction l with
  | nil => exact ⟨[], rfl⟩
  | cons a rest ih =>
    obtain ⟨b, hb⟩ := h a (List.mem_cons_self _ _)
    obtain ⟨bs, hbs⟩ := ih (fun x hx => h x (List.mem_cons_of_mem _ hx))
    exact ⟨b :: bs, by simp [exceptMapM, hb, hbs]⟩

theorem getCompilerOptions_flags (env : Environment) (s : LFortranLspLanguageServer)
    (document : LspTextDocument) :
    (getCompilerOptions env s document).2.clientSupportsGotoDefinitionLinks
        = s.clientSupportsGotoDefinitionLinks ∧
      (getCompilerOptions env s document).2.clientSupportsHierarchicalDocumentSymbols
        = s.clientSupportsHierarchicalDocumentSymbols := by
  unfold getCompilerOptions
  split
  · exact ⟨rfl, rfl⟩
  · split
    · exact ⟨rfl, rfl⟩
    · simp only
      split
      · exact ⟨rfl, rfl⟩
      · simp [*]

theorem definition_eq (env : Environment) (s s1 : LFortranLspLanguageServer)
    (params : DefinitionParams) (document : LspTextDocument) (cached : CompilerOptions)
    (symbols : List document_symbols)
    (hdoc : env.getDocument params.uri = .ok document)
    (hopts : getCompilerOptions env s document = (.ok cached, s1))
    (hlookup : env.lfortran.lookupName document.path document.text
      (withCursor cached params.position) = .ok symbols) :
    (receiveTextDocument_definition env s params).1 =
      if symbols.length > 0 then
        if s1.clientSupportsGotoDefinitionLinks then
          match exceptMapM (definitionLink env.fs (withCursor cached params.position)) symbols with
          | .error e => .error e
          | .ok links => .ok (.links links)
        else
          match exceptMapM (definitionLocation env.fs (withCursor cached params.position))
              symbols with
          | .error e => .error e
          | .ok locations => .ok (.locations locations)
      else .ok .null := by
  unfold receiveTextDocument_definition
  simp only [hdoc, hopts, hlookup]
  split
  · split
    · split <;> simp_all
    · split <;> simp_all
  · rfl

theorem definitionLink_ok (fs : FileSystem) (compilerOptions : CompilerOptions)
    (symbol : document_symbols) (link : DefinitionLink)
    (h : definitionLink fs compilerOptions symbol = .ok link) :
    ∃ path, resolve fs symbol.filename compilerOptions = .ok path ∧
      link = { targetUri := "file://" ++ path, targetRange := closedRange symbol
               targetSelectionRange := closedRange symbol } := by
  unfold definitionLink at h
  split at h
  · cases h
  · rename_i path hp
    exact ⟨path, hp, (Except.ok.inj h).symm⟩

theorem definitionLocation_ok (fs : FileSystem) (compilerOptions : CompilerOptions)
    (symbol : document_symbols) (location : Location)
    (h : definitionLocation fs compilerOptions symbol = .ok location) :
    ∃ path, resolve fs symbol.filename compilerOptions = .ok path ∧
      location = { uri := "file://" ++ path, range := closedRange symbol } := by
  unfold definitionLocation at h
  split at h
  · cases h
  · rename_i path hp
    exact ⟨path, hp, (Except.ok.inj h).symm⟩

/-- C9: when the document and its options are obtained and name lookup returns `symbols`,
`definition` returns the explicit null exactly when `symbols` is empty; when `symbols` has
`n ≥ 1` entries whose filenames all resolve, it returns a list (of links or of locations) with
exactly `n` entries, hence not empty, whose `i`-th entry is built from the `i`-th symbol: its
uri is `file://` followed by the resolved path and its range is the symbol's closed range. -/
theorem definition_null_iff_empty (env : Environment) (s s1 : LFortranLspLanguageServer)
    (params : DefinitionParams) (document : LspTextDocument) (cached : CompilerOptions)
    (symbols : List document_symbols)
    (hdoc : env.getDocument params.uri = .ok document)
    (hopts : getCompilerOptions env s document = (.ok cached, s1))
    (hlookup : env.lfortran.lookupName document.path document.text
      (withCursor cached params.position) = .ok symbols) :
    ((receiveTextDocument_definition env s params).1 = .ok .null ↔ symbols = []) ∧
    (symbols ≠ [] →
      (∀ symbol ∈ symbols, ∃ path,
        resolve env.fs symbol.filename (withCursor cached params.position) = .ok path) →
      (∃ links,
        (receiveTextDocument_definition env s params).1 = .ok (.links links) ∧
        links.length = symbols.length ∧ links ≠ [] ∧
        ∀ (i : Nat) (symbol : document_symbols), symbols[i]? = some symbol →
          ∃ path,
            resolve env.fs symbol.filename (withCursor cached params.position) = .ok path ∧
            links[i]? = some
              { targetUri := "file://" ++ path, targetRange := closedRange symbol
                targetSelectionRange := closedRange symbol }) ∨
      (∃ locations,
        (receiveTextDocument_definition env s params).1 = .ok (.locations locations) ∧
        locations.length = symbols.length ∧ locations ≠ [] ∧
        ∀ (i : Nat) (symbol : document_symbols), symbols[i]? = some symbol →
          ∃ path,
            resolve env.fs symbol.filename (withCursor cached params.position) = .ok path ∧
            locations[i]? = some { uri := "file://" ++ path, range := closedRange symbol })) := by
  rw [definition_eq env s s1 params document cached symbols hdoc hopts hlookup]
  constructor
  · constructor
    · intro hres
      by_contra hne
      have hpos : symbols.length > 0 := List.length_pos.mpr hne
      rw [if_pos hpos] at hres
      split at hres
      · split at hres
        · cases hres
        · injection hres with hres
          cases hres
      · split at hres
        · cases hres
        · injection hres with hres
          cases hres
    · rintro rfl
      rfl
  · intro hne hresolve
    have hpos : symbols.length > 0 := List.length_pos.mpr hne
    rw [if_pos hpos]
    by_cases hlinks : s1.clientSupportsGotoDefinitionLinks = true
    · left
      rw [if_pos hlinks]
      obtain ⟨links, hbuilt⟩ := exceptMapM_total
        (definitionLink env.fs (withCursor cached params.position)) symbols (by
          intro symbol hmem
          obtain ⟨path, hpath⟩ := hresolve symbol hmem
          exact ⟨{ targetUri := "file://" ++ path, targetRange := closedRange symbol
                   targetSelectionRange := closedRange symbol },
            by simp [definitionLink, hpath]⟩)
      have hspec := exceptMapM_ok_getElem _ _ _ hbuilt
      refine ⟨links, by simp [hbuilt], hspec.1, ?_, ?_⟩
      · intro hnil
        have := hspec.1
        rw [hnil] at this
        simp at this
        omega
      · intro i symbol hget
        obtain ⟨link, hlink, hf⟩ := hspec.2 i symbol hget
        obtain ⟨path, hpath, rfl⟩ := definitionLink_ok _ _ _ _ hf
        exact ⟨path, hpath, hlink⟩
    · right
      rw [if_neg hlinks]
      obtain ⟨locations, hbuilt⟩ := exceptMapM_total
        (definitionLocation env.fs (withCursor cached params.position)) symbols (by
          intro symbol hmem
          obtain ⟨path, hpath⟩ := hresolve symbol hmem
          exact ⟨{ uri := "file://" ++ path, range := closedRange symbol },
            by simp [definitionLocation, hpath]⟩)
      have hspec := exceptMapM_ok_getElem _ _ _ hbuilt
      refine ⟨locations, by simp [hbuilt], hspec.1, ?_, ?_⟩
      · intro hnil
        have := hspec.1
        rw [hnil] at this
        simp at this
        omega
      · intro i symbol hget
        obtain ⟨location, hloc, hf⟩ := hspec.2 i symbol hget
        obtain ⟨path, hpath, rfl⟩ := definitionLocation_ok _ _ _ _ hf
        exact ⟨path, hpath, hloc⟩

/-- C7: starting from a fresh session, with a base initialize result that sets none of the
three providers, the result of `initialize` has `renameProvider` set to true,
`definitionProvider` set to true when the client declared `textDocument.definition` and absent
otherwise, and `documentSymbolProvider` set to true when the client declared
`textDocument.documentSymbol` and absent otherwise. -/
theorem initialize_capabilities (env : Environment) (params : InitializeParams)
    (hbase : (env.baseInitialize params).capabilities =
      { definitionProvider := none, renameProvider := none, documentSymbolProvider := none }) :
    let result := (receiveInitialize env .fresh params).1
    result.capabilities.renameProvider = some true ∧
    result.capabilities.definitionProvider =
      (if declaresDefinition params then some true else none) ∧
    result.capabilities.documentSymbolProvider =
      (if declaresDocumentSymbol params then some true else none) := by
  obtain ⟨⟨textDocument⟩⟩ := params
  simp only [receiveInitialize, hbase, declaresDefinition, declaresDocumentSymbol,
    LFortranLspLanguageServer.fresh]
  cases textDocument with
  | none => simp
  | some textDocument =>
    obtain ⟨definition, documentSymbol⟩ := textDocument
    cases definition <;> cases documentSymbol <;> simp


theorem mapFind_mapReplace {κ ν : Type} [DecidableEq κ] (m : List (κ × ν)) (k q : κ) (v : ν) :
    mapFind (mapReplace m k v) q
      = if q = k then (mapFind m k).map (fun _ => v) else mapFind m q := by
  induction m with
  | nil => simp [mapReplace, mapFind]
  | cons entry rest ih =>
    obtain ⟨k0, v0⟩ := entry
    by_cases hk : k0 = k
    · subst hk
      by_cases hq : q = k0
      · subst hq
        simp [mapReplace, mapFind]
      · have hq2 : ¬ k0 = q := fun h => hq h.symm
        simp [mapReplace, mapFind, hq, hq2]
    · by_cases hq : q = k
      · subst hq
        simp [mapReplace, mapFind, hk, ih]
      · by_cases hq0 : k0 = q
        · simp [mapReplace, mapFind, hk, hq, hq0]
        · simp [mapReplace, mapFind, hk, hq, hq0, ih]

theorem mapFind_append_single {κ ν : Type} [DecidableEq κ] (m : List (κ × ν)) (k q : κ) (v : ν)
    (hk : mapFind m k = none) :
    mapFind (m ++ [(k, v)]) q = if q = k then some v else mapFind m q := by
  induction m with
  | nil =>
    by_cases hq : q = k
    · subst hq; simp [mapFind]
    · have hq2 : ¬ k = q := fun h => hq h.symm
      simp [mapFind, hq, hq2]
  | cons entry rest ih =>
    obtain ⟨k0, v0⟩ := entry
    by_cases hk0 : k0 = k
    · subst hk0
      simp [mapFind] at hk
    · simp only [mapFind, hk0, if_false] at hk
      by_cases hq0 : k0 = q
      · subst hq0
        simp [mapFind, hk0]
      · simp [mapFind, hq0, ih hk]

theorem mapFind_pushChild (childrenBySymbol : List (Nat × List SymbolPtr)) (parent q : Nat)
    (symbol : SymbolPtr) :
    mapFind (pushChild childrenBySymbol parent symbol) q
      = if q = parent then some ((mapFind childrenBySymbol parent).getD [] ++ [symbol])
        else mapFind childrenBySymbol q := by
  unfold pushChild
  cases hfind : mapFind childrenBySymbol parent with
  | none => simp [mapFind_append_single _ _ _ _ hfind]
  | some children => simp [mapFind_mapReplace, hfind]

theorem mergeChildren_cons (old : Option (List SymbolPtr)) (x : SymbolPtr)
    (extra : List SymbolPtr) :
    mergeChildren (some (old.getD [] ++ [x])) extra = mergeChildren old (x :: extra) := by
  cases extra <;> simp [mergeChildren]

theorem indexLoop_spec (fs : FileSystem) (document : LspTextDocument)
    (compilerOptions : CompilerOptions) (symbols rest : List document_symbols) :
    ∀ (i : Nat) (index result : SymbolIndex),
      indexLoop fs document compilerOptions symbols i rest index = .ok result →
      result.roots
          = index.roots ++ (rest.enumFrom i).filter (keptRoot fs document compilerOptions) ∧
        ∀ p, mapFind result.childrenBySymbol p
          = mergeChildren (mapFind index.childrenBySymbol p)
              ((rest.enumFrom i).filter (keptChild fs document compilerOptions p)) := by
  induction rest with
  | nil =>
    intro i index result h
    simp only [indexLoop, Except.ok.injEq] at h
    subst h
    simp [mergeChildren]
  | cons symbol rest ih =>
    intro i index result h
    unfold indexLoop at h
    cases hres : resolve fs symbol.filename compilerOptions with
    | error e => simp [hres] at h
    | ok resolved =>
      simp only [hres] at h
      by_cases hkept : document.path = resolved
      · simp only [hkept, if_true] at h
        have hk : isKept fs document compilerOptions symbol = true := by
          simp [isKept, hres, hkept]
        by_cases hpar : symbol.parent_index ≥ 0
        · simp only [hpar, if_true] at h
          cases hat : symbols[symbol.parent_index.toNat]? with
          | none => simp [hat] at h
          | some parent =>
            simp only [hat] at h
            obtain ⟨hroots, hchildren⟩ := ih _ _ _ h
            have hnot : ¬ symbol.parent_index < 0 := by omega
            refine ⟨?_, ?_⟩
            · simp [hroots, List.enumFrom_cons, List.filter_cons, keptRoot, hnot]
            · intro p
              rw [hchildren p, mapFind_pushChild]
              by_cases hp : p = symbol.parent_index.toNat
              · subst hp
                have hpeq : symbol.parent_index = ((symbol.parent_index.toNat : Nat) : Int) := by
                  omega
                rw [if_pos rfl, mergeChildren_cons]
                have : keptChild fs document compilerOptions symbol.parent_index.toNat
                    (i, symbol) = true := by
                  simp only [keptChild, hk, Bool.true_and, decide_eq_true_eq]
                  exact hpeq
                simp [List.enumFrom_cons, List.filter_cons, this]
              · have : keptChild fs document compilerOptions p (i, symbol) = false := by
                  simp only [keptChild, hk, Bool.true_and, decide_eq_false_iff_not]
                  intro hcontra
                  apply hp
                  omega
                simp [hp, List.enumFrom_cons, List.filter_cons, this]
        · simp only [hpar, if_false] at h
          obtain ⟨hroots, hchildren⟩ := ih _ _ _ h
          have hneg : symbol.parent_index < 0 := by omega
          refine ⟨?_, ?_⟩
          · simp [hroots, List.enumFrom_cons, List.filter_cons, keptRoot, hk, hneg]
          · intro p
            rw [hchildren p]
            have : keptChild fs document compilerOptions p (i, symbol) = false := by
              simp only [keptChild, hk, Bool.true_and, decide_eq_false_iff_not]
              omega
            simp [List.enumFrom_cons, List.filter_cons, this]
      · simp only [hkept, if_false] at h
        obtain ⟨hroots, hchildren⟩ := ih _ _ _ h
        have hk : isKept fs document compilerOptions symbol = false := by
          simp [isKept, hres, hkept]
        refine ⟨?_, ?_⟩
        · simp [hroots, List.enumFrom_cons, List.filter_cons, keptRoot, hk]
        · intro p
          rw [hchildren p]
          simp [List.enumFrom_cons, List.filter_cons, keptChild, hk]

theorem indexLoop_total (fs : FileSystem) (document : LspTextDocument)
    (compilerOptions : CompilerOptions) (symbols rest : List document_symbols)
    (hresolve : ∀ symbol ∈ rest, ∃ path, resolve fs symbol.filename compilerOptions = .ok path)
    (hparent : ∀ symbol ∈ rest, isKept fs document compilerOptions symbol = true →
      0 ≤ symbol.parent_index → symbol.parent_index.toNat < symbols.length) :
    ∀ (i : Nat) (index : SymbolIndex),
      ∃ result, indexLoop fs document compilerOptions symbols i rest index = .ok result := by
  induction rest with
  | nil => intro i index; exact ⟨index, rfl⟩
  | cons symbol rest ih =>
    intro i index
    have ih2 := ih (fun x hx => hresolve x (List.mem_cons_of_mem _ hx))
      (fun x hx => hparent x (List.mem_cons_of_mem _ hx))
    obtain ⟨path, hpath⟩ := hresolve symbol (List.mem_cons_self _ _)
    unfold indexLoop
    simp only [hpath]
    by_cases hkept : document.path = path
    · simp only [hkept, if_true]
      by_cases hpar : symbol.parent_index ≥ 0
      · simp only [hpar, if_true]
        have hlt := hparent symbol (List.mem_cons_self _ _)
          (by simp [isKept, hpath, hkept]) hpar
        have hsome : symbols[symbol.parent_index.toNat]?
            = some (symbols[symbol.parent_index.toNat]) := List.getElem?_eq_getElem hlt
        rw [hsome]
        exact ih2 _ _
      · simp only [hpar, if_false]
        exact ih2 _ _
    · simp only [hkept, if_false]
      exact ih2 _ _

theorem reachesRootIn_valid (symbols : List document_symbols) (d i : Nat)
    (h : reachesRootIn symbols d i = true) : i < symbols.length := by
  by_contra hge
  have hnone : symbols[i]? = none := List.getElem?_eq_none (by omega)
  cases d <;> simp [reachesRootIn, hnone] at h

theorem reachesRootIn_unique (symbols : List document_symbols) :
    ∀ (d e i : Nat), reachesRootIn symbols d i = true → reachesRootIn symbols e i = true →
      d = e := by
  intro d
  induction d with
  | zero =>
    intro e i hd he
    cases e with
    | zero => rfl
    | succ e =>
      cases hs : symbols[i]? with
      | none => simp [reachesRootIn, hs] at hd
      | some symbol =>
        simp only [reachesRootIn, hs, decide_eq_true_eq] at hd
        simp only [reachesRootIn, hs, Bool.and_eq_true, decide_eq_true_eq] at he
        omega
  | succ d ih =>
    intro e i hd he
    cases hs : symbols[i]? with
    | none => simp [reachesRootIn, hs] at hd
    | some symbol =>
      simp only [reachesRootIn, hs, Bool.and_eq_true, decide_eq_true_eq] at hd
      cases e with
      | zero =>
        simp only [reachesRootIn, hs, decide_eq_true_eq] at he
        omega
      | succ e =>
        simp only [reachesRootIn, hs, Bool.and_eq_true, decide_eq_true_eq] at he
        rw [ih e _ hd.2 he.2]

theorem parentChain_spec (symbols : List document_symbols) :
    ∀ (d i : Nat), reachesRootIn symbols d i = true →
      (parentChain symbols d i).length = d + 1 ∧
      (∀ j ∈ parentChain symbols d i, ∃ e, e ≤ d ∧ reachesRootIn symbols e j = true) ∧
      (parentChain symbols d i).Nodup := by
  intro d
  induction d with
  | zero =>
    intro i h
    refine ⟨by simp [parentChain], ?_, by simp [parentChain]⟩
    intro j hj
    simp only [parentChain, List.mem_singleton] at hj
    subst hj
    exact ⟨0, le_refl _, h⟩
  | succ d ih =>
    intro i h
    cases hs : symbols[i]? with
    | none => simp [reachesRootIn, hs] at h
    | some symbol =>
      have h2 := h
      simp only [reachesRootIn, hs, Bool.and_eq_true, decide_eq_true_eq] at h2
      obtain ⟨hlen, hmem, hnodup⟩ := ih _ h2.2
      refine ⟨by simp [parentChain, hs, hlen], ?_, ?_⟩
      · intro j hj
        simp only [parentChain, hs, List.mem_cons] at hj
        rcases hj with rfl | hj
        · exact ⟨d + 1, le_refl _, h⟩
        · obtain ⟨e, he, hr⟩ := hmem j hj
          exact ⟨e, by omega, hr⟩
      · simp only [parentChain, hs, List.nodup_cons]
        refine ⟨?_, hnodup⟩
        intro hi
        obtain ⟨e, he, hr⟩ := hmem i hi
        have := reachesRootIn_unique symbols _ _ _ h hr
        omega

theorem reachesRootIn_lt (symbols : List document_symbols) (d i : Nat)
    (h : reachesRootIn symbols d i = true) : d < symbols.length := by
  obtain ⟨hlen, hmem, hnodup⟩ := parentChain_spec symbols d i h
  have hsub : (parentChain symbols d i).toFinset ⊆ Finset.range symbols.length := by
    intro j hj
    rw [List.mem_toFinset] at hj
    obtain ⟨e, _, hr⟩ := hmem j hj
    exact Finset.mem_range.mpr (reachesRootIn_valid symbols e j hr)
  have hcard := Finset.card_le_card hsub
  rw [List.toFinset_card_of_nodup hnodup, Finset.card_range, hlen] at hcard
  omega

theorem IndexTree.mem_preorderList (forest : List IndexTree) (j : Nat) :
    j ∈ IndexTree.preorderList forest ↔ ∃ t ∈ forest, j ∈ t.preorder := by
  induction forest with
  | nil => simp [IndexTree.preorderList]
  | cons t rest ih => simp [IndexTree.preorderList, ih]

theorem IndexTree.mem_nodesList (forest : List IndexTree) (u : IndexTree) :
    u ∈ IndexTree.nodesList forest ↔ ∃ t ∈ forest, u ∈ t.nodes := by
  induction forest with
  | nil => simp [IndexTree.nodesList]
  | cons t rest ih => simp [IndexTree.nodesList, ih]

theorem IndexTree.index_mem_preorder (t : IndexTree) : t.index ∈ t.preorder := by
  cases t
  simp [IndexTree.preorder, IndexTree.index]

theorem optMapM_total {α β : Type} (f : α → Option β) (l : List α)
    (h : ∀ a ∈ l, ∃ b, f a = some b) : ∃ r, optMapM f l = some r := by
  induction l with
  | nil => exact ⟨[], rfl⟩
  | cons a rest ih =>
    obtain ⟨b, hb⟩ := h a (List.mem_cons_self _ _)
    obtain ⟨bs, hbs⟩ := ih (fun x hx => h x (List.mem_cons_of_mem _ hx))
    exact ⟨b :: bs, by simp [optMapM, hb, hbs]⟩

theorem ancestor_add (symbols : List document_symbols) :
    ∀ (a b j c : Nat), ancestor symbols a j = some c →
      ancestor symbols (a + b) j = ancestor symbols b c := by
  intro a
  induction a with
  | zero =>
    intro b j c h
    simp only [ancestor, Option.some.injEq] at h
    subst h
    simp
  | succ a ih =>
    intro b j c h
    have hab : a + 1 + b = (a + b) + 1 := by omega
    rw [hab]
    cases hs : symbols[j]? with
    | none => simp [ancestor, hs] at h
    | some symbol =>
      simp only [ancestor, hs] at h ⊢
      by_cases hp : 0 ≤ symbol.parent_index
      · simp only [hp, if_true] at h ⊢
        exact ih b _ c h
      · simp [hp] at h

theorem mem_keptChildren (fs : FileSystem) (document : LspTextDocument)
    (compilerOptions : CompilerOptions) (symbols : List document_symbols) (parent : Nat)
    (c : SymbolPtr) (h : c ∈ keptChildren fs document compilerOptions symbols parent) :
    symbols[c.1]? = some c.2 ∧ isKept fs document compilerOptions c.2 = true ∧
      c.2.parent_index = (parent : Int) := by
  unfold keptChildren at h
  rw [List.mem_filter] at h
  obtain ⟨hmem, hk⟩ := h
  simp only [keptChild, Bool.and_eq_true, decide_eq_true_eq] at hk
  exact ⟨List.mk_mem_enum_iff_getElem?.mp hmem, hk.1, hk.2⟩

theorem keptChildren_nodup (fs : FileSystem) (document : LspTextDocument)
    (compilerOptions : CompilerOptions) (symbols : List document_symbols) (parent : Nat) :
    ((keptChildren fs document compilerOptions symbols parent).map Prod.fst).Nodup := by
  unfold keptChildren
  exact List.Nodup.sublist ((List.filter_sublist _).map Prod.fst)
    (List.nodup_enum_map_fst symbols)

theorem child_depth (symbols : List document_symbols) (d parent : Nat) (c : SymbolPtr)
    (hc : symbols[c.1]? = some c.2) (hp : c.2.parent_index = (parent : Int))
    (hd : reachesRootIn symbols d parent = true) :
    reachesRootIn symbols (d + 1) c.1 = true ∧ ancestor symbols 1 c.1 = some parent := by
  have h0 : 0 ≤ c.2.parent_index := by omega
  have ht : c.2.parent_index.toNat = parent := by omega
  constructor
  · simp [reachesRootIn, hc, h0, ht, hd]
  · simp [ancestor, hc, h0, ht]

theorem walk_total (fs : FileSystem) (document : LspTextDocument)
    (compilerOptions : CompilerOptions) (symbols : List document_symbols)
    (childrenBySymbol : List (Nat × List SymbolPtr))
    (hcb : ∀ p, mapFind childrenBySymbol p
      = mergeChildren none (keptChildren fs document compilerOptions symbols p)) :
    ∀ (fuel d : Nat) (root : SymbolPtr) (symbol : DocumentSymbol),
      reachesRootIn symbols d root.1 = true → symbols.length ≤ d + fuel →
      ∃ r, walk childrenBySymbol fuel root symbol = some r := by
  intro fuel
  induction fuel with
  | zero =>
    intro d root symbol hd hle
    have := reachesRootIn_lt symbols d root.1 hd
    omega
  | succ fuel ih =>
    intro d root symbol hd hle
    unfold walk
    cases hfind : mapFind childrenBySymbol root.1 with
    | none => exact ⟨symbol, rfl⟩
    | some nodes =>
      simp only
      have hnodes : ∀ c ∈ nodes,
          c ∈ keptChildren fs document compilerOptions symbols root.1 := by
        intro c hc
        have h := hcb root.1
        rw [hfind] at h
        cases hk : keptChildren fs document compilerOptions symbols root.1 with
        | nil => simp [hk, mergeChildren] at h
        | cons x xs =>
          simp only [hk, mergeChildren, Option.getD_none, List.nil_append,
            Option.some.injEq] at h
          rw [← h]
          exact hc
      obtain ⟨children, hchildren⟩ := optMapM_total
        (fun node => walk childrenBySymbol fuel node (init node.2)) nodes (by
          intro c hc
          obtain ⟨hget, _, hpar⟩ := mem_keptChildren _ _ _ _ _ _ (hnodes c hc)
          exact ih (d + 1) c (init c.2) (child_depth symbols d root.1 c hget hpar hd).1
            (by omega))
      exact ⟨symbol.emplaceChildren children, by simp [hchildren]⟩

theorem optMapM_cons_some {α β : Type} (f : α → Option β) (a : α) (rest : List α)
    (rs : List β) (h : optMapM f (a :: rest) = some rs) :
    ∃ b bs, f a = some b ∧ optMapM f rest = some bs ∧ rs = b :: bs := by
  unfold optMapM at h
  cases hfa : f a with
  | none => simp [hfa] at h
  | some b =>
    cases hrest : optMapM f rest with
    | none => simp [hfa, hrest] at h
    | some bs =>
      simp only [hfa, hrest, Option.some.injEq] at h
      exact ⟨b, bs, rfl, rfl, h.symm⟩

theorem walkList_shape (fs : FileSystem) (document : LspTextDocument)
    (compilerOptions : CompilerOptions) (symbols : List document_symbols)
    (childrenBySymbol : List (Nat × List SymbolPtr)) (fuel d : Nat) :
    ∀ (cs : List SymbolPtr) (rs : List DocumentSymbol),
      (cs.map Prod.fst).Nodup →
      (∀ c ∈ cs, ∀ r, walk childrenBySymbol fuel c (init c.2) = some r →
        ∃ t : IndexTree, t.index = c.1 ∧ t.render symbols = some r ∧
          GoodTree fs document compilerOptions symbols d t) →
      optMapM (fun c => walk childrenBySymbol fuel c (init c.2)) cs = some rs →
      ∃ ts : List IndexTree,
        ts.map IndexTree.index = cs.map Prod.fst ∧
        IndexTree.renderList symbols ts = some rs ∧
        (∀ t ∈ ts, GoodTree fs document compilerOptions symbols d t) ∧
        (IndexTree.preorderList ts).Nodup := by
  intro cs
  induction cs with
  | nil =>
    intro rs _ _ h
    simp only [optMapM, Option.some.injEq] at h
    subst h
    exact ⟨[], rfl, rfl, by simp, by simp [IndexTree.preorderList]⟩
  | cons c rest ih =>
    intro rs hnodup hwalk h
    obtain ⟨r, rs2, hr, hrest, rfl⟩ := optMapM_cons_some _ _ _ _ h
    obtain ⟨t, hti, htr, htg⟩ := hwalk c (List.mem_cons_self _ _) r hr
    simp only [List.map_cons, List.nodup_cons] at hnodup
    obtain ⟨ts, htsi, htsr, htsg, htsn⟩ := ih rs2 hnodup.2
      (fun x hx => hwalk x (List.mem_cons_of_mem _ hx)) hrest
    refine ⟨t :: ts, by simp [hti, htsi], by simp [IndexTree.renderList, htr, htsr], ?_, ?_⟩
    · intro u hu
      rcases List.mem_cons.mp hu with rfl | hu
      · exact htg
      · exact htsg u hu
    · simp only [IndexTree.preorderList]
      rw [List.nodup_append]
      refine ⟨htg.nodup, htsn, ?_⟩
      intro j hj1 hj2
      obtain ⟨t2, ht2, hj2⟩ := (IndexTree.mem_preorderList ts j).mp hj2
      obtain ⟨a1, hd1, ha1⟩ := htg.depth j hj1
      obtain ⟨a2, hd2, ha2⟩ := (htsg t2 ht2).depth j hj2
      have ha : a1 = a2 := by
        have := reachesRootIn_unique symbols _ _ _ hd1 hd2
        omega
      subst ha
      rw [ha1] at ha2
      have hidx : t.index = t2.index := Option.some.inj ha2
      apply hnodup.1
      rw [← htsi, ← hti, hidx]
      exact List.mem_map_of_mem _ ht2

theorem walk_shape (fs : FileSystem) (document : LspTextDocument)
    (compilerOptions : CompilerOptions) (symbols : List document_symbols)
    (childrenBySymbol : List (Nat × List SymbolPtr))
    (hcb : ∀ p, mapFind childrenBySymbol p
      = mergeChildren none (keptChildren fs document compilerOptions symbols p)) :
    ∀ (fuel d : Nat) (root : SymbolPtr) (r : DocumentSymbol),
      symbols[root.1]? = some root.2 → isKept fs document compilerOptions root.2 = true →
      reachesRootIn symbols d root.1 = true →
      walk childrenBySymbol fuel root (init root.2) = some r →
      ∃ t : IndexTree, t.index = root.1 ∧ t.render symbols = some r ∧
        GoodTree fs document compilerOptions symbols d t := by
  intro fuel
  induction fuel with
  | zero =>
    intro d root r _ _ _ h
    simp [walk] at h
  | succ fuel ih =>
    intro d root r hget hkept hd h
    unfold walk at h
    have hspec := hcb root.1
    cases hk : keptChildren fs document compilerOptions symbols root.1 with
    | nil =>
      rw [hk] at hspec
      simp only [mergeChildren] at hspec
      simp only [hspec, Option.some.injEq] at h
      subst h
      refine ⟨.node root.1 [], rfl, by simp [IndexTree.render, hget], ?_⟩
      refine ⟨?_, ?_, ?_, ?_, ?_⟩
      · intro u hu
        simp only [IndexTree.nodes, IndexTree.nodesList, List.mem_singleton] at hu
        subst hu
        simp [IndexTree.children, IndexTree.index, hk]
      · intro j hj
        simp only [IndexTree.preorder, IndexTree.preorderList, List.mem_singleton] at hj
        subst hj
        exact ⟨root.2, hget, hkept⟩
      · intro j hj
        simp only [IndexTree.preorder, IndexTree.preorderList, List.mem_singleton] at hj
        subst hj
        exact ⟨0, hd, rfl⟩
      · simp [IndexTree.preorder, IndexTree.preorderList]
      · intro j hj c hc
        simp only [IndexTree.preorder, IndexTree.preorderList, List.mem_singleton] at hj
        subst hj
        rw [hk] at hc
        cases hc
    | cons x xs =>
      rw [hk] at hspec
      simp only [mergeChildren, Option.getD_none, List.nil_append] at hspec
      simp only [hspec] at h
      cases hchildren : optMapM (fun node => walk childrenBySymbol fuel node (init node.2))
          (x :: xs) with
      | none => simp [hchildren] at h
      | some children =>
        simp only [hchildren, Option.some.injEq] at h
        subst h
        have hmem : ∀ c ∈ x :: xs,
            symbols[c.1]? = some c.2 ∧ isKept fs document compilerOptions c.2 = true ∧
              c.2.parent_index = (root.1 : Int) := by
          intro c hc
          exact mem_keptChildren _ _ _ _ _ _ (hk ▸ hc)
        have hnodup : ((x :: xs).map Prod.fst).Nodup := by
          rw [← hk]
          exact keptChildren_nodup _ _ _ _ _
        obtain ⟨ts, htsi, htsr, htsg, htsn⟩ := walkList_shape fs document compilerOptions
          symbols childrenBySymbol fuel (d + 1) (x :: xs) children hnodup (by
            intro c hc r hr
            obtain ⟨hcget, hckept, hcpar⟩ := hmem c hc
            exact ih (d + 1) c r hcget hckept
              (child_depth symbols d root.1 c hcget hcpar hd).1 hr) hchildren
        have hroot : ∀ t ∈ ts, ancestor symbols 1 t.index = some root.1 := by
          intro t ht
          have : t.index ∈ (x :: xs).map Prod.fst := by
            rw [← htsi]
            exact List.mem_map_of_mem _ ht
          obtain ⟨c, hc, hci⟩ := List.mem_map.mp this
          obtain ⟨hcget, _, hcpar⟩ := hmem c hc
          rw [← hci]
          exact (child_depth symbols d root.1 c hcget hcpar hd).2
        cases ts with
        | nil => simp at htsi
        | cons t0 ts0 =>
          refine ⟨.node root.1 (t0 :: ts0), rfl, by simp [IndexTree.render, hget, htsr], ?_⟩
          refine ⟨?_, ?_, ?_, ?_, ?_⟩
          · intro u hu
            simp only [IndexTree.nodes, List.mem_cons] at hu
            rcases hu with rfl | hu
            · simp only [IndexTree.children, IndexTree.index, hk]
              exact htsi
            · obtain ⟨t, ht, hut⟩ := (IndexTree.mem_nodesList _ u).mp hu
              exact (htsg t ht).children u hut
          · intro j hj
            simp only [IndexTree.preorder, List.mem_cons] at hj
            rcases hj with rfl | hj
            · exact ⟨root.2, hget, hkept⟩
            · obtain ⟨t, ht, hjt⟩ := (IndexTree.mem_preorderList _ j).mp hj
              exact (htsg t ht).kept j hjt
          · intro j hj
            simp only [IndexTree.preorder, List.mem_cons] at hj
            rcases hj with rfl | hj
            · exact ⟨0, hd, rfl⟩
            · obtain ⟨t, ht, hjt⟩ := (IndexTree.mem_preorderList _ j).mp hj
              obtain ⟨a, hda, haa⟩ := (htsg t ht).depth j hjt
              refine ⟨a + 1, ?_, ?_⟩
              · have : d + (a + 1) = d + 1 + a := by omega
                rw [this]
                exact hda
              · rw [ancestor_add symbols a 1 j t.index haa]
                exact hroot t ht
          · simp only [IndexTree.preorder, List.nodup_cons]
            refine ⟨?_, htsn⟩
            intro hj
            obtain ⟨t, ht, hjt⟩ := (IndexTree.mem_preorderList _ _).mp hj
            obtain ⟨a, hda, _⟩ := (htsg t ht).depth _ hjt
            have := reachesRootIn_unique symbols _ _ _ hda hd
            omega
          · intro j hj c hc
            simp only [IndexTree.preorder, List.mem_cons] at hj ⊢
            right
            rw [IndexTree.mem_preorderList]
            rcases hj with rfl | hj
            · have : c.1 ∈ (t0 :: ts0).map IndexTree.index := by
                rw [htsi, ← hk]
                exact List.mem_map_of_mem _ hc
              obtain ⟨t, ht, hti⟩ := List.mem_map.mp this
              exact ⟨t, ht, hti ▸ IndexTree.index_mem_preorder t⟩
            · obtain ⟨t, ht, hjt⟩ := (IndexTree.mem_preorderList _ j).mp hj
              exact ⟨t, ht, (htsg t ht).closed j hjt c hc⟩

theorem isKept_iff (fs : FileSystem) (document : LspTextDocument)
    (compilerOptions : CompilerOptions) (symbol : document_symbols) :
    isKept fs document compilerOptions symbol = true
      ↔ resolve fs symbol.filename compilerOptions = .ok document.path := by
  unfold isKept
  cases resolve fs symbol.filename compilerOptions with
  | error e => simp
  | ok resolved =>
    simp only [decide_eq_true_eq, Except.ok.injEq]
    exact eq_comm

theorem mem_keptRoots (fs : FileSystem) (document : LspTextDocument)
    (compilerOptions : CompilerOptions) (symbols : List document_symbols) (c : SymbolPtr) :
    c ∈ symbols.enum.filter (keptRoot fs document compilerOptions) ↔
      symbols[c.1]? = some c.2 ∧ isKept fs document compilerOptions c.2 = true ∧
        c.2.parent_index < 0 := by
  rw [List.mem_filter]
  simp only [keptRoot, Bool.and_eq_true, decide_eq_true_eq]
  rw [← List.mk_mem_enum_iff_getElem?]

theorem hierarchical_build (fs : FileSystem) (document : LspTextDocument)
    (compilerOptions : CompilerOptions) (symbols : List document_symbols)
    (index : SymbolIndex)
    (hindex : indexLoop fs document compilerOptions symbols 0 symbols
      { childrenBySymbol := [], roots := [] } = .ok index) :
    ∃ (forest : List IndexTree) (documentSymbols : List DocumentSymbol),
      optMapM (fun root => walk index.childrenBySymbol symbols.length root (init root.2))
        index.roots = some documentSymbols ∧
      IndexTree.renderList symbols forest = some documentSymbols ∧
      forest.map IndexTree.index
        = (symbols.enum.filter (keptRoot fs document compilerOptions)).map Prod.fst ∧
      (∀ t ∈ forest, GoodTree fs document compilerOptions symbols 0 t) ∧
      (IndexTree.preorderList forest).Nodup := by
  obtain ⟨hroots, hchildren⟩ := indexLoop_spec fs document compilerOptions symbols symbols 0
    _ index hindex
  simp only [List.nil_append] at hroots
  have hcb : ∀ p, mapFind index.childrenBySymbol p
      = mergeChildren none (keptChildren fs document compilerOptions symbols p) := by
    intro p
    rw [hchildren p]
    rfl
  have hrootsEnum : index.roots = symbols.enum.filter (keptRoot fs document compilerOptions) :=
    hroots
  have hrootMem : ∀ c ∈ index.roots,
      symbols[c.1]? = some c.2 ∧ isKept fs document compilerOptions c.2 = true ∧
        reachesRootIn symbols 0 c.1 = true := by
    intro c hc
    rw [hrootsEnum, mem_keptRoots] at hc
    exact ⟨hc.1, hc.2.1, by simp [reachesRootIn, hc.1, hc.2.2]⟩
  obtain ⟨documentSymbols, hds⟩ := optMapM_total
    (fun root => walk index.childrenBySymbol symbols.length root (init root.2)) index.roots (by
      intro c hc
      exact walk_total fs document compilerOptions symbols index.childrenBySymbol hcb
        symbols.length 0 c (init c.2) (hrootMem c hc).2.2 (by omega))
  have hnodup : (index.roots.map Prod.fst).Nodup := by
    rw [hrootsEnum]
    exact List.Nodup.sublist ((List.filter_sublist _).map Prod.fst)
      (List.nodup_enum_map_fst symbols)
  obtain ⟨forest, hfi, hfr, hfg, hfn⟩ := walkList_shape fs document compilerOptions symbols
    index.childrenBySymbol symbols.length 0 index.roots documentSymbols hnodup (by
      intro c hc r hr
      obtain ⟨hget, hkept, hdepth⟩ := hrootMem c hc
      exact walk_shape fs document compilerOptions symbols index.childrenBySymbol hcb
        symbols.length 0 c r hget hkept hdepth hr) hds
  exact ⟨forest, documentSymbols, hds, hfr, by rw [hfi, hrootsEnum], hfg, hfn⟩

theorem documentSymbol_hierarchical_eq (env : Environment) (s s1 : LFortranLspLanguageServer)
    (params : DocumentSymbolParams) (document : LspTextDocument)
    (compilerOptions : CompilerOptions) (symbols : List document_symbols)
    (hdoc : env.getDocument params.uri = .ok document)
    (hopts : getCompilerOptions env s document = (.ok compilerOptions, s1))
    (hsym : env.lfortran.getSymbols document.path document.text compilerOptions = .ok symbols)
    (hhier : s1.clientSupportsHierarchicalDocumentSymbols = true) :
    (receiveTextDocument_documentSymbol env s params).1 =
      match indexLoop env.fs document compilerOptions symbols 0 symbols
          { childrenBySymbol := [], roots := [] } with
      | .error e => some (.error e)
      | .ok index =>
        match optMapM
            (fun root => walk index.childrenBySymbol symbols.length root (init root.2))
            index.roots with
        | none => none
        | some documentSymbols => some (.ok (.documentSymbols documentSymbols)) := by
  unfold receiveTextDocument_documentSymbol
  simp only [hdoc, hopts, hsym, hhier, if_true]
  split
  · simp_all
  · split <;> simp_all

theorem documentSymbol_flat_eq (env : Environment) (s s1 : LFortranLspLanguageServer)
    (params : DocumentSymbolParams) (document : LspTextDocument)
    (compilerOptions : CompilerOptions) (symbols : List document_symbols)
    (hdoc : env.getDocument params.uri = .ok document)
    (hopts : getCompilerOptions env s document = (.ok compilerOptions, s1))
    (hsym : env.lfortran.getSymbols document.path document.text compilerOptions = .ok symbols)
    (hflat : s1.clientSupportsHierarchicalDocumentSymbols = false) :
    (receiveTextDocument_documentSymbol env s params).1 =
      match exceptMapM (symbolInformation env.fs compilerOptions) symbols with
      | .error e => some (.error e)
      | .ok infos => some (.ok (.symbolInformations infos)) := by
  unfold receiveTextDocument_documentSymbol
  simp only [hdoc, hopts, hsym, hflat]
  cases exceptMapM (symbolInformation env.fs compilerOptions) symbols <;> simp


mutual
theorem IndexTree.preorder_eq_nodes :
    ∀ t : IndexTree, t.preorder = t.nodes.map IndexTree.index
  | .node i children => by
    simp [IndexTree.preorder, IndexTree.nodes, IndexTree.index,
      IndexTree.preorderList_eq_nodesList children]
theorem IndexTree.preorderList_eq_nodesList :
    ∀ forest : List IndexTree,
      IndexTree.preorderList forest = (IndexTree.nodesList forest).map IndexTree.index
  | [] => by simp [IndexTree.preorderList, IndexTree.nodesList]
  | t :: rest => by
    simp [IndexTree.preorderList, IndexTree.nodesList, IndexTree.preorder_eq_nodes t,
      IndexTree.preorderList_eq_nodesList rest]
end

theorem reachesRootIn_mem_forest (fs : FileSystem) (document : LspTextDocument)
    (compilerOptions : CompilerOptions) (symbols : List document_symbols)
    (forest : List IndexTree)
    (hkept : ∀ symbol ∈ symbols, isKept fs document compilerOptions symbol = true)
    (hroots : forest.map IndexTree.index
      = (symbols.enum.filter (keptRoot fs document compilerOptions)).map Prod.fst)
    (hgood : ∀ t ∈ forest, GoodTree fs document compilerOptions symbols 0 t) :
    ∀ (d j : Nat), reachesRootIn symbols d j = true → j ∈ IndexTree.preorderList forest := by
  intro d
  induction d with
  | zero =>
    intro j hj
    cases hs : symbols[j]? with
    | none => simp [reachesRootIn, hs] at hj
    | some symbol =>
      simp only [reachesRootIn, hs, decide_eq_true_eq] at hj
      have hmem : (j, symbol) ∈ symbols.enum.filter (keptRoot fs document compilerOptions) :=
        (mem_keptRoots _ _ _ _ _).mpr ⟨hs, hkept symbol (List.getElem?_mem hs), hj⟩
      have : j ∈ forest.map IndexTree.index := by
        rw [hroots]
        exact List.mem_map.mpr ⟨(j, symbol), hmem, rfl⟩
      obtain ⟨t, ht, hti⟩ := List.mem_map.mp this
      exact (IndexTree.mem_preorderList forest j).mpr
        ⟨t, ht, hti ▸ IndexTree.index_mem_preorder t⟩
  | succ d ih =>
    intro j hj
    cases hs : symbols[j]? with
    | none => simp [reachesRootIn, hs] at hj
    | some symbol =>
      simp only [reachesRootIn, hs, Bool.and_eq_true, decide_eq_true_eq] at hj
      obtain ⟨t, ht, hpt⟩ := (IndexTree.mem_preorderList forest _).mp (ih _ hj.2)
      have hchild : (j, symbol)
          ∈ keptChildren fs document compilerOptions symbols symbol.parent_index.toNat := by
        unfold keptChildren
        rw [List.mem_filter]
        refine ⟨List.mk_mem_enum_iff_getElem?.mpr hs, ?_⟩
        simp only [keptChild, hkept symbol (List.getElem?_mem hs), Bool.true_and,
          decide_eq_true_eq]
        exact (Int.toNat_of_nonneg hj.1).symm
      exact (IndexTree.mem_preorderList forest j).mpr
        ⟨t, ht, (hgood t ht).closed _ hpt _ hchild⟩

theorem filter_keptRoot_all (fs : FileSystem) (document : LspTextDocument)
    (compilerOptions : CompilerOptions) (symbols : List document_symbols)
    (hkept : ∀ symbol ∈ symbols, isKept fs document compilerOptions symbol = true) :
    (symbols.enum.filter (keptRoot fs document compilerOptions)).map Prod.fst
      = rootIndices symbols := by
  unfold rootIndices
  congr 1
  apply List.filter_congr
  intro entry hentry
  have hget : symbols[entry.1]? = some entry.2 := List.mk_mem_enum_iff_getElem?.mp hentry
  simp [keptRoot, hkept entry.2 (List.getElem?_mem hget)]

theorem keptChildren_all (fs : FileSystem) (document : LspTextDocument)
    (compilerOptions : CompilerOptions) (symbols : List document_symbols)
    (hkept : ∀ symbol ∈ symbols, isKept fs document compilerOptions symbol = true)
    (parent : Nat) :
    (keptChildren fs document compilerOptions symbols parent).map Prod.fst
      = childIndices symbols parent := by
  unfold childIndices keptChildren
  congr 1
  apply List.filter_congr
  intro entry hentry
  have hget : symbols[entry.1]? = some entry.2 := List.mk_mem_enum_iff_getElem?.mp hentry
  simp [keptChild, hkept entry.2 (List.getElem?_mem hget)]

/-- C4: in hierarchical mode, when every symbol of the flat list resolves to the requesting
document, every parent index is negative or a valid index of the list, and following parent
indices from any symbol reaches a parentless symbol, `documentSymbol` returns the rendering
of a forest of symbol indices in which: the top-level nodes are the parentless symbols in list
order; the children of the node for symbol `i` are the nodes for exactly the symbols whose
parent index is `i`, in list order; every node carries the name, mapped kind and range of its
own symbol (that is what `IndexTree.renderList` builds); and the nodes are, up to order,
exactly the indices `0 .. n - 1`, one node per symbol. -/
theorem documentSymbol_hierarchy (env : Environment) (s s1 : LFortranLspLanguageServer)
    (params : DocumentSymbolParams) (document : LspTextDocument)
    (compilerOptions : CompilerOptions) (symbols : List document_symbols)
    (hdoc : env.getDocument params.uri = .ok document)
    (hopts : getCompilerOptions env s document = (.ok compilerOptions, s1))
    (hsym : env.lfortran.getSymbols document.path document.text compilerOptions = .ok symbols)
    (hhier : s1.clientSupportsHierarchicalDocumentSymbols = true)
    (hresolve : ∀ symbol ∈ symbols,
      resolve env.fs symbol.filename compilerOptions = .ok document.path)
    (hparent : ∀ symbol ∈ symbols,
      symbol.parent_index < 0 ∨ symbol.parent_index.toNat < symbols.length)
    (hreach : ∀ i, i < symbols.length → ∃ d, reachesRootIn symbols d i = true) :
    ∃ (forest : List IndexTree) (documentSymbols : List DocumentSymbol),
      (receiveTextDocument_documentSymbol env s params).1
        = some (.ok (.documentSymbols documentSymbols)) ∧
      IndexTree.renderList symbols forest = some documentSymbols ∧
      forest.map IndexTree.index = rootIndices symbols ∧
      (∀ u ∈ IndexTree.nodesList forest,
        u.children.map IndexTree.index = childIndices symbols u.index) ∧
      ((IndexTree.nodesList forest).map IndexTree.index).Perm (List.range symbols.length) := by
  have hkept : ∀ symbol ∈ symbols, isKept env.fs document compilerOptions symbol = true :=
    fun symbol hmem => (isKept_iff _ _ _ _).mpr (hresolve symbol hmem)
  obtain ⟨index, hindex⟩ := indexLoop_total env.fs document compilerOptions symbols symbols
    (fun symbol hmem => ⟨_, hresolve symbol hmem⟩)
    (fun symbol hmem _ hnonneg => by
      rcases hparent symbol hmem with h | h
      · omega
      · exact h) 0 { childrenBySymbol := [], roots := [] }
  obtain ⟨forest, documentSymbols, hwalk, hrender, hroots, hgood, hnodup⟩ :=
    hierarchical_build env.fs document compilerOptions symbols index hindex
  refine ⟨forest, documentSymbols, ?_, hrender, ?_, ?_, ?_⟩
  · rw [documentSymbol_hierarchical_eq env s s1 params document compilerOptions symbols hdoc
      hopts hsym hhier]
    simp only [hindex, hwalk]
  · rw [hroots, filter_keptRoot_all _ _ _ _ hkept]
  · intro u hu
    obtain ⟨t, ht, hut⟩ := (IndexTree.mem_nodesList forest u).mp hu
    rw [(hgood t ht).children u hut, keptChildren_all _ _ _ _ hkept]
  · rw [← IndexTree.preorderList_eq_nodesList]
    rw [List.perm_ext_iff_of_nodup hnodup (List.nodup_range _)]
    intro j
    constructor
    · intro hj
      obtain ⟨t, ht, hjt⟩ := (IndexTree.mem_preorderList forest j).mp hj
      obtain ⟨symbol, hget, _⟩ := (hgood t ht).kept j hjt
      rw [List.mem_range]
      by_contra hge
      rw [List.getElem?_eq_none (by omega)] at hget
      cases hget
    · intro hj
      obtain ⟨d, hd⟩ := hreach j (List.mem_range.mp hj)
      exact reachesRootIn_mem_forest env.fs document compilerOptions symbols forest hkept
        hroots hgood d j hd

/-- C5: in hierarchical mode, when every filename of the flat list resolves, `documentSymbol`
for document A always comes back (with a result or an exception; with a result when every
non-negative parent index is a valid index), and every tree it returns is the rendering of a
forest of symbol indices each of whose nodes, at every depth, stands for a symbol whose
resolved filename is A's path; a symbol that resolves to another file is no node of it. -/
theorem documentSymbol_tree_only_kept (env : Environment) (s s1 : LFortranLspLanguageServer)
    (params : DocumentSymbolParams) (document : LspTextDocument)
    (compilerOptions : CompilerOptions) (symbols : List document_symbols)
    (hdoc : env.getDocument params.uri = .ok document)
    (hopts : getCompilerOptions env s document = (.ok compilerOptions, s1))
    (hsym : env.lfortran.getSymbols document.path document.text compilerOptions = .ok symbols)
    (hhier : s1.clientSupportsHierarchicalDocumentSymbols = true)
    (hresolve : ∀ symbol ∈ symbols, ∃ path,
      resolve env.fs symbol.filename compilerOptions = .ok path) :
    (receiveTextDocument_documentSymbol env s params).1 ≠ none ∧
    ((∀ symbol ∈ symbols, 0 ≤ symbol.parent_index →
        symbol.parent_index.toNat < symbols.length) →
      ∃ documentSymbols, (receiveTextDocument_documentSymbol env s params).1
        = some (.ok (.documentSymbols documentSymbols))) ∧
    ∀ documentSymbols,
      (receiveTextDocument_documentSymbol env s params).1
        = some (.ok (.documentSymbols documentSymbols)) →
      ∃ forest : List IndexTree,
        IndexTree.renderList symbols forest = some documentSymbols ∧
        ∀ u ∈ IndexTree.nodesList forest, ∃ symbol,
          symbols[u.index]? = some symbol ∧
          resolve env.fs symbol.filename compilerOptions = .ok document.path := by
  rw [documentSymbol_hierarchical_eq env s s1 params document compilerOptions symbols hdoc
    hopts hsym hhier]
  cases hindex : indexLoop env.fs document compilerOptions symbols 0 symbols
      { childrenBySymbol := [], roots := [] } with
  | error e =>
    refine ⟨by simp, ?_, by simp⟩
    intro hparent
    obtain ⟨index, hok⟩ := indexLoop_total env.fs document compilerOptions symbols symbols
      hresolve (fun symbol hmem _ hnonneg => hparent symbol hmem hnonneg) 0
      { childrenBySymbol := [], roots := [] }
    rw [hok] at hindex
    cases hindex
  | ok index =>
    obtain ⟨forest, built, hwalk, hrender, _, hgood, _⟩ :=
      hierarchical_build env.fs document compilerOptions symbols index hindex
    simp only [hwalk]
    refine ⟨by simp, fun _ => ⟨built, rfl⟩, ?_⟩
    intro documentSymbols hres
    simp only [Option.some.injEq, Except.ok.injEq,
      TextDocument_DocumentSymbolResult.documentSymbols.injEq] at hres
    subst hres
    refine ⟨forest, hrender, ?_⟩
    intro u hu
    have hidx : u.index ∈ IndexTree.preorderList forest := by
      rw [IndexTree.preorderList_eq_nodesList]
      exact List.mem_map_of_mem _ hu
    obtain ⟨t, ht, hjt⟩ := (IndexTree.mem_preorderList forest _).mp hidx
    obtain ⟨symbol, hget, hk⟩ := (hgood t ht).kept _ hjt
    exact ⟨symbol, hget, (isKept_iff _ _ _ _).mp hk⟩

theorem initialize_flags (env : Environment) (params : InitializeParams) :
    (receiveInitialize env .fresh params).2.clientSupportsGotoDefinitionLinks
        = declaresDefinitionLinks params ∧
      (receiveInitialize env .fresh params).2.clientSupportsHierarchicalDocumentSymbols
        = declaresHierarchicalSymbols params := by
  obtain ⟨⟨textDocument⟩⟩ := params
  cases textDocument with
  | none => exact ⟨rfl, rfl⟩
  | some textDocument =>
    obtain ⟨definition, documentSymbol⟩ := textDocument
    cases definition with
    | none =>
      cases documentSymbol with
      | none => exact ⟨rfl, rfl⟩
      | some documentSymbol =>
        obtain ⟨support⟩ := documentSymbol
        rcases support with _ | _ | _ <;> exact ⟨rfl, rfl⟩
    | some definition =>
      obtain ⟨linkSupport⟩ := definition
      cases documentSymbol with
      | none => rcases linkSupport with _ | _ | _ <;> exact ⟨rfl, rfl⟩
      | some documentSymbol =>
        obtain ⟨support⟩ := documentSymbol
        rcases linkSupport with _ | _ | _ <;> rcases support with _ | _ | _ <;>
          exact ⟨rfl, rfl⟩

theorem documentSymbol_hierarchical_outcome (env : Environment)
    (s s1 : LFortranLspLanguageServer) (params : DocumentSymbolParams)
    (document : LspTextDocument) (compilerOptions : CompilerOptions)
    (symbols : List document_symbols)
    (hdoc : env.getDocument params.uri = .ok document)
    (hopts : getCompilerOptions env s document = (.ok compilerOptions, s1))
    (hsym : env.lfortran.getSymbols document.path document.text compilerOptions = .ok symbols)
    (hhier : s1.clientSupportsHierarchicalDocumentSymbols = true) :
    (receiveTextDocument_documentSymbol env s params).1 ≠ none ∧
    (∀ r, (receiveTextDocument_documentSymbol env s params).1 = some (.ok r) →
      ∃ documentSymbols, r = .documentSymbols documentSymbols) ∧
    ((∀ symbol ∈ symbols, ∃ path,
        resolve env.fs symbol.filename compilerOptions = .ok path) →
      (∀ symbol ∈ symbols, 0 ≤ symbol.parent_index →
        symbol.parent_index.toNat < symbols.length) →
      ∃ r, (receiveTextDocument_documentSymbol env s params).1 = some (.ok r)) := by
  rw [documentSymbol_hierarchical_eq env s s1 params document compilerOptions symbols hdoc
    hopts hsym hhier]
  cases hindex : indexLoop env.fs document compilerOptions symbols 0 symbols
      { childrenBySymbol := [], roots := [] } with
  | error e =>
    refine ⟨by simp, by simp, ?_⟩
    intro hresolve hparent
    obtain ⟨index, hok⟩ := indexLoop_total env.fs document compilerOptions symbols symbols
      hresolve (fun symbol hmem _ hnonneg => hparent symbol hmem hnonneg) 0
      { childrenBySymbol := [], roots := [] }
    rw [hok] at hindex
    cases hindex
  | ok index =>
    obtain ⟨forest, built, hwalk, _, _, _, _⟩ :=
      hierarchical_build env.fs document compilerOptions symbols index hindex
    simp only [hwalk]
    refine ⟨by simp, ?_, fun _ _ => ⟨_, rfl⟩⟩
    intro r hr
    simp only [Option.some.injEq, Except.ok.injEq] at hr
    exact ⟨built, hr.symm⟩

theorem documentSymbol_flat_outcome (env : Environment)
    (s s1 : LFortranLspLanguageServer) (params : DocumentSymbolParams)
    (document : LspTextDocument) (compilerOptions : CompilerOptions)
    (symbols : List document_symbols)
    (hdoc : env.getDocument params.uri = .ok document)
    (hopts : getCompilerOptions env s document = (.ok compilerOptions, s1))
    (hsym : env.lfortran.getSymbols document.path document.text compilerOptions = .ok symbols)
    (hflat : s1.clientSupportsHierarchicalDocumentSymbols = false) :
    (receiveTextDocument_documentSymbol env s params).1 ≠ none ∧
    (∀ r, (receiveTextDocument_documentSymbol env s params).1 = some (.ok r) →
      ∃ infos, r = .symbolInformations infos) ∧
    ((∀ symbol ∈ symbols, ∃ path,
        resolve env.fs symbol.filename compilerOptions = .ok path) →
      ∃ r, (receiveTextDocument_documentSymbol env s params).1 = some (.ok r)) := by
  rw [documentSymbol_flat_eq env s s1 params document compilerOptions symbols hdoc hopts hsym
    hflat]
  cases hbuilt : exceptMapM (symbolInformation env.fs compilerOptions) symbols with
  | error e =>
    refine ⟨by simp, by simp, ?_⟩
    intro hresolve
    obtain ⟨infos, hok⟩ := exceptMapM_total (symbolInformation env.fs compilerOptions) symbols
      (by
        intro symbol hmem
        obtain ⟨path, hpath⟩ := hresolve symbol hmem
        exact ⟨{ name := "", kind := none
                 location := { uri := "file://" ++ path, range := symbolRange symbol } },
          by simp [symbolInformation, hpath]⟩)
    rw [hok] at hbuilt
    cases hbuilt
  | ok infos =>
    refine ⟨by simp, ?_, fun _ => ⟨_, rfl⟩⟩
    intro r hr
    simp only [Option.some.injEq, Except.ok.injEq] at hr
    exact ⟨infos, hr.symm⟩

theorem definition_outcome (env : Environment) (s s1 : LFortranLspLanguageServer)
    (params : DefinitionParams) (document : LspTextDocument) (cached : CompilerOptions)
    (symbols : List document_symbols)
    (hdoc : env.getDocument params.uri = .ok document)
    (hopts : getCompilerOptions env s document = (.ok cached, s1))
    (hlookup : env.lfortran.lookupName document.path document.text
      (withCursor cached params.position) = .ok symbols)
    (hne : symbols ≠ []) :
    (∀ r, (receiveTextDocument_definition env s params).1 = .ok r →
      ((∃ links, r = .links links) ↔ s1.clientSupportsGotoDefinitionLinks = true) ∧
      ((∃ locations, r = .locations locations)
        ↔ s1.clientSupportsGotoDefinitionLinks = false)) ∧
    ((∀ symbol ∈ symbols, ∃ path,
        resolve env.fs symbol.filename (withCursor cached params.position) = .ok path) →
      ∃ r, (receiveTextDocument_definition env s params).1 = .ok r) := by
  rw [definition_eq env s s1 params document cached symbols hdoc hopts hlookup]
  have hpos : symbols.length > 0 := List.length_pos.mpr hne
  rw [if_pos hpos]
  cases hflag : s1.clientSupportsGotoDefinitionLinks with
  | true =>
    simp only [if_true]
    constructor
    · intro r hr
      cases hbuilt : exceptMapM (definitionLink env.fs (withCursor cached params.position))
          symbols with
      | error e => simp [hbuilt] at hr
      | ok links =>
        simp only [hbuilt, Except.ok.injEq] at hr
        subst hr
        simp
    · intro hresolve
      obtain ⟨links, hok⟩ := exceptMapM_total
        (definitionLink env.fs (withCursor cached params.position)) symbols (by
          intro symbol hmem
          obtain ⟨path, hpath⟩ := hresolve symbol hmem
          exact ⟨{ targetUri := "file://" ++ path, targetRange := closedRange symbol
                   targetSelectionRange := closedRange symbol },
            by simp [definitionLink, hpath]⟩)
      exact ⟨.links links, by simp [hok]⟩
  | false =>
    simp only [Bool.false_eq_true, if_false]
    constructor
    · intro r hr
      cases hbuilt : exceptMapM (definitionLocation env.fs (withCursor cached params.position))
          symbols with
      | error e => simp [hbuilt] at hr
      | ok locations =>
        simp only [hbuilt, Except.ok.injEq] at hr
        subst hr
        simp
    · intro hresolve
      obtain ⟨locations, hok⟩ := exceptMapM_total
        (definitionLocation env.fs (withCursor cached params.position)) symbols (by
          intro symbol hmem
          obtain ⟨path, hpath⟩ := hresolve symbol hmem
          exact ⟨{ uri := "file://" ++ path, range := closedRange symbol },
            by simp [definitionLocation, hpath]⟩)
      exact ⟨.locations locations, by simp [hok]⟩

theorem documentSymbol_shape (env : Environment) (s : LFortranLspLanguageServer)
    (params : DocumentSymbolParams) :
    (receiveTextDocument_documentSymbol env s params).1 ≠ none ∧
    ∀ r, (receiveTextDocument_documentSymbol env s params).1 = some (.ok r) →
      ((∃ documentSymbols, r = .documentSymbols documentSymbols)
        ↔ s.clientSupportsHierarchicalDocumentSymbols = true) ∧
      ((∃ infos, r = .symbolInformations infos)
        ↔ s.clientSupportsHierarchicalDocumentSymbols = false) := by
  cases hdoc : env.getDocument params.uri with
  | error e =>
    have h : (receiveTextDocument_documentSymbol env s params).1 = some (.error e) := by
      simp [receiveTextDocument_documentSymbol, hdoc]
    rw [h]
    exact ⟨by simp, fun r hr => by simp at hr⟩
  | ok document =>
    cases hopts : getCompilerOptions env s document with
    | mk result s1 =>
      cases result with
      | error e =>
        have h : (receiveTextDocument_documentSymbol env s params).1 = some (.error e) := by
          simp [receiveTextDocument_documentSymbol, hdoc, hopts]
        rw [h]
        exact ⟨by simp, fun r hr => by simp at hr⟩
      | ok cached =>
        have hflag := (getCompilerOptions_flags env s document).2
        rw [hopts] at hflag
        cases hsym : env.lfortran.getSymbols document.path document.text cached with
        | error e =>
          have h : (receiveTextDocument_documentSymbol env s params).1 = some (.error e) := by
            simp [receiveTextDocument_documentSymbol, hdoc, hopts, hsym]
          rw [h]
          exact ⟨by simp, fun r hr => by simp at hr⟩
        | ok symbols =>
          cases hdecl : s.clientSupportsHierarchicalDocumentSymbols with
          | true =>
            obtain ⟨h1, h2, _⟩ := documentSymbol_hierarchical_outcome env s s1 params
              document cached symbols hdoc hopts hsym (hflag.trans hdecl)
            refine ⟨h1, ?_⟩
            intro r hr
            obtain ⟨documentSymbols, rfl⟩ := h2 r hr
            simp
          | false =>
            obtain ⟨h1, h2, _⟩ := documentSymbol_flat_outcome env s s1 params
              document cached symbols hdoc hopts hsym (hflag.trans hdecl)
            refine ⟨h1, ?_⟩
            intro r hr
            obtain ⟨infos, rfl⟩ := h2 r hr
            simp

/-- C8: after `initialize` from a fresh session. A `definition` request whose lookup result
is not empty returns (whenever it returns a result, which it does when the filenames resolve)
the link shape exactly when the client declared `textDocument.definition` with `linkSupport`
present and true, and the location shape exactly when it did not. A `documentSymbol` request
always comes back, and every result it returns has the hierarchical shape exactly when the
client declared `textDocument.documentSymbol` with `hierarchicalDocumentSymbolSupport` present
and true, and the flat shape exactly when it did not; it returns a result when the symbol table
is obtained, the filenames resolve and the non-negative parent indices are valid. Each half
assumes of the compiler only the search its handler calls. -/
theorem result_shape_selection (env : Environment) (initParams : InitializeParams) :
    (∀ (params : DefinitionParams) (document : LspTextDocument) (cached : CompilerOptions)
        (s1 : LFortranLspLanguageServer) (found : List document_symbols),
      env.getDocument params.uri = .ok document →
      getCompilerOptions env (receiveInitialize env .fresh initParams).2 document
        = (.ok cached, s1) →
      env.lfortran.lookupName document.path document.text
        (withCursor cached params.position) = .ok found →
      found ≠ [] →
      (∀ r, (receiveTextDocument_definition env (receiveInitialize env .fresh initParams).2
          params).1 = .ok r →
        ((∃ links, r = .links links) ↔ declaresDefinitionLinks initParams = true) ∧
        ((∃ locations, r = .locations locations)
          ↔ declaresDefinitionLinks initParams = false)) ∧
      ((∀ symbol ∈ found, ∃ path,
          resolve env.fs symbol.filename (withCursor cached params.position) = .ok path) →
        ∃ r, (receiveTextDocument_definition env (receiveInitialize env .fresh initParams).2
          params).1 = .ok r)) ∧
    (∀ symbolParams : DocumentSymbolParams,
      (receiveTextDocument_documentSymbol env (receiveInitialize env .fresh initParams).2
        symbolParams).1 ≠ none ∧
      (∀ r, (receiveTextDocument_documentSymbol env
          (receiveInitialize env .fresh initParams).2 symbolParams).1 = some (.ok r) →
        ((∃ documentSymbols, r = .documentSymbols documentSymbols)
          ↔ declaresHierarchicalSymbols initParams = true) ∧
        ((∃ infos, r = .symbolInformations infos)
          ↔ declaresHierarchicalSymbols initParams = false)) ∧
      ∀ (document : LspTextDocument) (cached : CompilerOptions)
          (s1 : LFortranLspLanguageServer) (symbols : List document_symbols),
        env.getDocument symbolParams.uri = .ok document →
        getCompilerOptions env (receiveInitialize env .fresh initParams).2 document
          = (.ok cached, s1) →
        env.lfortran.getSymbols document.path document.text cached = .ok symbols →
        (∀ symbol ∈ symbols, ∃ path, resolve env.fs symbol.filename cached = .ok path) →
        (∀ symbol ∈ symbols, 0 ≤ symbol.parent_index →
          symbol.parent_index.toNat < symbols.length) →
        ∃ r, (receiveTextDocument_documentSymbol env
          (receiveInitialize env .fresh initParams).2 symbolParams).1 = some (.ok r)) := by
  have hinit := initialize_flags env initParams
  constructor
  · intro params document cached s1 found hdoc hopts hlookup hfound
    have hflags := getCompilerOptions_flags env (receiveInitialize env .fresh initParams).2
      document
    rw [hopts] at hflags
    have hlinks : s1.clientSupportsGotoDefinitionLinks = declaresDefinitionLinks initParams :=
      hflags.1.trans hinit.1
    have h := definition_outcome env _ s1 params document cached found hdoc hopts hlookup
      hfound
    rw [hlinks] at h
    exact h
  · intro symbolParams
    have hshape := documentSymbol_shape env (receiveInitialize env .fresh initParams).2
      symbolParams
    rw [hinit.2] at hshape
    refine ⟨hshape.1, hshape.2, ?_⟩
    intro document cached s1 symbols hdocSymbol hopts hsym hresolve hparent
    have hflags := getCompilerOptions_flags env (receiveInitialize env .fresh initParams).2
      document
    rw [hopts] at hflags
    have hhier : s1.clientSupportsHierarchicalDocumentSymbols
        = declaresHierarchicalSymbols initParams := hflags.2.trans hinit.2
    cases hdecl : declaresHierarchicalSymbols initParams with
    | true =>
      rw [hdecl] at hhier
      exact (documentSymbol_hierarchical_outcome env _ s1 symbolParams document cached
        symbols hdocSymbol hopts hsym hhier).2.2 hresolve hparent
    | false =>
      rw [hdecl] at hhier
      exact (documentSymbol_flat_outcome env _ s1 symbolParams document cached symbols
        hdocSymbol hopts hsym hhier).2.2 hresolve

theorem validate_diagnostic_range_witness :
    (2 < numProblems Example.tenIssues 3 ∧
      Example.tenIssues[2]? = some (Example.issue 2)) ∧
    ∃ params diagnostic,
      (validate (Example.env Example.tenIssues []) .fresh Example.document).1
        = .published params ∧
      params.diagnostics[2]? = some diagnostic ∧
      diagnostic.range =
        { start := { line := 2, character := 1 }, stop := { line := 2, character := 9 } } :=
  ⟨⟨by decide, by decide⟩,
    validate_diagnostic_range (Example.env Example.tenIssues []) .fresh Example.cached
      Example.document Example.options Example.tenIssues
      { flags := ["-c"], maxNumberOfProblems := 3 } 2 (Example.issue 2)
      (by decide) (by decide) (by decide) (by decide) (by decide) (by decide) (by decide)
      (by decide)⟩

theorem validate_publishes_first_min_witness :
    Example.tenIssues.length = 10 ∧
    ∃ params,
      (validate (Example.env Example.tenIssues []) .fresh Example.document).1
        = .published params ∧
      params.diagnostics.length = 3 ∧
      ∀ i, i < 3 →
        ∃ highlight, Example.tenIssues[i]? = some highlight ∧
          params.diagnostics[i]? = some (buildDiagnostic "lfortran" highlight) :=
  ⟨by decide,
    validate_publishes_first_min (Example.env Example.tenIssues []) .fresh Example.cached
      Example.document Example.options Example.tenIssues
      { flags := ["-c"], maxNumberOfProblems := 3 } (by decide) (by decide) (by decide)
      (by decide)⟩

theorem definition_null_iff_empty_witness :
    Example.rootAndChild ≠ [] ∧
    (∀ symbol ∈ Example.rootAndChild, ∃ path,
      resolve Example.fs symbol.filename Example.atOrigin = .ok path) ∧
    ((receiveTextDocument_definition (Example.env [] Example.rootAndChild) .fresh
        Example.definitionParams).1 = .ok .null ↔ Example.rootAndChild = []) ∧
    ((∃ links,
        (receiveTextDocument_definition (Example.env [] Example.rootAndChild) .fresh
          Example.definitionParams).1 = .ok (.links links) ∧ links.length = 2) ∨
      (∃ locations,
        (receiveTextDocument_definition (Example.env [] Example.rootAndChild) .fresh
          Example.definitionParams).1 = .ok (.locations locations) ∧
        locations.length = 2)) := by
  have hresolve : ∀ symbol ∈ Example.rootAndChild, ∃ path,
      resolve Example.fs symbol.filename Example.atOrigin = .ok path := by
    intro symbol hmem
    exact ⟨"/w/a.f90",
      (by decide : ∀ symbol ∈ Example.rootAndChild,
        resolve Example.fs symbol.filename Example.atOrigin = .ok "/w/a.f90") symbol hmem⟩
  have h := definition_null_iff_empty (Example.env [] Example.rootAndChild) .fresh
    Example.cached Example.definitionParams Example.document Example.options
    Example.rootAndChild (by decide) (by decide) (by decide)
  refine ⟨by decide, hresolve, h.1, ?_⟩
  rcases h.2 (by decide) hresolve with ⟨links, hres, hlen, _⟩ | ⟨locations, hres, hlen, _⟩
  · exact Or.inl ⟨links, hres, hlen⟩
  · exact Or.inr ⟨locations, hres, hlen⟩

theorem initialize_capabilities_witness :
    ((Example.env [] []).baseInitialize Example.noCapabilities).capabilities =
      { definitionProvider := none, renameProvider := none, documentSymbolProvider := none } ∧
    (let result := (receiveInitialize (Example.env [] []) .fresh Example.noCapabilities).1
     result.capabilities.renameProvider = some true ∧
     result.capabilities.definitionProvider = none ∧
     result.capabilities.documentSymbolProvider = none) :=
  ⟨by decide, initialize_capabilities (Example.env [] []) Example.noCapabilities (by decide)⟩

theorem documentSymbol_hierarchy_witness :
    (receiveTextDocument_documentSymbol (Example.env [] Example.rootAndChild)
        Example.hierarchical Example.symbolParams).1 =
      some (.ok (.documentSymbols
        [.mk "root" .Function Example.outlineRange Example.outlineRange
          (some [.mk "child" .Function Example.outlineRange Example.outlineRange none])])) ∧
    ∃ (forest : List IndexTree) (documentSymbols : List DocumentSymbol),
      (receiveTextDocument_documentSymbol (Example.env [] Example.rootAndChild)
        Example.hierarchical Example.symbolParams).1
        = some (.ok (.documentSymbols documentSymbols)) ∧
      IndexTree.renderList Example.rootAndChild forest = some documentSymbols ∧
      forest.map IndexTree.index = rootIndices Example.rootAndChild ∧
      (∀ u ∈ IndexTree.nodesList forest,
        u.children.map IndexTree.index = childIndices Example.rootAndChild u.index) ∧
      ((IndexTree.nodesList forest).map IndexTree.index).Perm (List.range 2) :=
  ⟨rfl,
    documentSymbol_hierarchy (Example.env [] Example.rootAndChild) Example.hierarchical
      Example.hierarchicalCached Example.symbolParams Example.document Example.options
      Example.rootAndChild (by decide) (by decide) (by decide) (by decide) (by decide)
      (by decide)
      (by
        intro i hi
        have h2 : i < 2 := hi
        interval_cases i
        · exact ⟨0, by decide⟩
        · exact ⟨1, by decide⟩)⟩

theorem documentSymbol_tree_only_kept_witness :
    (∀ symbol ∈ Example.twoFiles, ∃ path,
      resolve Example.fs symbol.filename Example.options = .ok path) ∧
    resolve Example.fs "b.f90" Example.options = .ok "/w/inc/b.f90" ∧
    (receiveTextDocument_documentSymbol (Example.env [] Example.twoFiles)
        Example.hierarchical Example.symbolParams).1 =
      some (.ok (.documentSymbols
        [.mk "here" .Function Example.outlineRange Example.outlineRange none])) ∧
    ∃ forest : List IndexTree,
      IndexTree.renderList Example.twoFiles forest
        = some [.mk "here" .Function Example.outlineRange Example.outlineRange none] ∧
      ∀ u ∈ IndexTree.nodesList forest, ∃ symbol,
        Example.twoFiles[u.index]? = some symbol ∧
        resolve Example.fs symbol.filename Example.options = .ok "/w/a.f90" := by
  have hresolve : ∀ symbol ∈ Example.twoFiles, ∃ path,
      resolve Example.fs symbol.filename Example.options = .ok path := by
    intro symbol hmem
    simp only [Example.twoFiles, List.mem_cons, List.mem_singleton, List.not_mem_nil,
      or_false] at hmem
    rcases hmem with rfl | rfl
    · exact ⟨"/w/a.f90", by decide⟩
    · exact ⟨"/w/inc/b.f90", by decide⟩
  exact ⟨hresolve, by decide, rfl,
    (documentSymbol_tree_only_kept (Example.env [] Example.twoFiles) Example.hierarchical
      Example.hierarchicalCached Example.symbolParams Example.document Example.options
      Example.twoFiles (by decide) (by decide) (by decide) (by decide) hresolve).2.2 _ rfl⟩

theorem result_shape_selection_witness :
    declaresDefinitionLinks Example.noCapabilities = false ∧
    declaresHierarchicalSymbols Example.noCapabilities = false ∧
    (Example.lookupOnly Example.rootAndChild).lfortran.getSymbols "/w/a.f90" "program a"
      Example.options = .error (.stdException "unavailable") ∧
    (∃ locations,
      (receiveTextDocument_definition (Example.lookupOnly Example.rootAndChild)
        (receiveInitialize (Example.lookupOnly Example.rootAndChild) .fresh
          Example.noCapabilities).2 Example.definitionParams).1
        = .ok (.locations locations)) ∧
    (Example.symbolsOnly Example.rootAndChild).lfortran.lookupName "/w/a.f90" "program a"
      Example.atOrigin = .error (.stdException "unavailable") ∧
    ∃ infos,
      (receiveTextDocument_documentSymbol (Example.symbolsOnly Example.rootAndChild)
        (receiveInitialize (Example.symbolsOnly Example.rootAndChild) .fresh
          Example.noCapabilities).2 Example.symbolParams).1
        = some (.ok (.symbolInformations infos)) := by
  have h := (result_shape_selection (Example.lookupOnly Example.rootAndChild)
    Example.noCapabilities).1 Example.definitionParams Example.document Example.options
    Example.cached Example.rootAndChild (by decide) (by decide) (by decide) (by decide)
  have g := (result_shape_selection (Example.symbolsOnly Example.rootAndChild)
    Example.noCapabilities).2 Example.symbolParams
  obtain ⟨r, hr⟩ := h.2 (fun symbol hmem => ⟨"/w/a.f90",
    (by decide : ∀ symbol ∈ Example.rootAndChild,
      resolve Example.fs symbol.filename Example.atOrigin = .ok "/w/a.f90") symbol hmem⟩)
  obtain ⟨locations, hloc⟩ := ((h.1 r hr).2).mpr (by decide)
  obtain ⟨q, hq⟩ := g.2.2 Example.document Example.options Example.cached
    Example.rootAndChild (by decide) (by decide) (by decide)
    (fun symbol hmem => ⟨"/w/a.f90",
      (by decide : ∀ symbol ∈ Example.rootAndChild,
        resolve Example.fs symbol.filename Example.options = .ok "/w/a.f90") symbol hmem⟩)
    (by decide)
  obtain ⟨infos, hinfos⟩ := ((g.2.1 q hq).2).mpr (by decide)
  exact ⟨by decide, by decide, by decide, ⟨locations, hloc ▸ hr⟩, by decide,
    ⟨infos, hinfos ▸ hq⟩⟩

/-- C6 (the code at a failing input): in flat mode, for the list `Example.twoFiles` whose
second symbol resolves to the included file `/w/inc/b.f90` and not to the document
`/w/a.f90`, `documentSymbol` emits two records, the second of them for the symbol of the other
file: the flat branch has no filter on the current document. -/
theorem documentSymbol_flat_keeps_other_file :
    resolve Example.fs "b.f90" Example.options = .ok "/w/inc/b.f90" ∧
    isKept Example.fs Example.document Example.options
      (Example.symbol "elsewhere" "b.f90" (-1)) = false ∧
    (receiveTextDocument_documentSymbol (Example.env [] Example.twoFiles) .fresh
        Example.symbolParams).1 =
      some (.ok (.symbolInformations
        [{ name := "", kind := none
           location := { uri := "file:///w/a.f90", range := Example.outlineRange } },
         { name := "", kind := none
           location := { uri := "file:///w/inc/b.f90", range := Example.outlineRange } }])) :=
  ⟨by decide, by decide, rfl⟩

theorem getCompilerOptions_eq (env : Environment) (s : LFortranLspLanguageServer)
    (document : LspTextDocument) :
    getCompilerOptions env s document =
      match mapFind s.optionsByUri document.uri with
      | some cached => (.ok cached, s)
      | none =>
        match env.getConfig document.uri with
        | .error e => (.error e, s)
        | .ok config =>
          match env.parse (config.flags ++ [document.path]) with
          | .error what => (.error (.LspException .InvalidParams what), s)
          | .ok parsed =>
            (.ok { parsed with continue_compilation := true },
              { s with
                optionsByUri := s.optionsByUri ++
                  [(document.uri, { parsed with continue_compilation := true })] }) := by
  unfold getCompilerOptions getLFortranConfig
  cases hfind : mapFind s.optionsByUri document.uri with
  | some cached => rfl
  | none =>
    cases hcfg : env.getConfig document.uri with
    | error e => simp [hcfg]
    | ok config =>
      cases hparse : env.parse (config.flags ++ [document.path]) with
      | error what => simp [hcfg, hparse]
      | ok parsed => simp [hcfg, hparse, hfind]

theorem mapFind_eq_none_iff {κ ν : Type} [DecidableEq κ] (m : List (κ × ν)) (key : κ) :
    mapFind m key = none ↔ key ∉ m.map Prod.fst := by
  induction m with
  | nil => simp [mapFind]
  | cons entry rest ih =>
    obtain ⟨k, v⟩ := entry
    by_cases hk : k = key
    · simp [mapFind, hk]
    · have hk2 : ¬ key = k := fun h => hk h.symm
      simp [mapFind, hk, hk2, ih]

theorem mapCount_eq_zero {κ ν : Type} [DecidableEq κ] (m : List (κ × ν)) (key : κ)
    (h : mapFind m key = none) : mapCount m key = 0 := by
  rw [mapFind_eq_none_iff] at h
  unfold mapCount
  rw [List.length_eq_zero, List.filter_eq_nil_iff]
  intro entry hmem
  simp only [decide_eq_true_eq]
  intro heq
  exact h (List.mem_map.mpr ⟨entry, hmem, heq⟩)

theorem mapCount_of_nodup {κ ν : Type} [DecidableEq κ] (m : List (κ × ν)) (key : κ) (v : ν)
    (hkeys : (m.map Prod.fst).Nodup) (h : mapFind m key = some v) : mapCount m key = 1 := by
  induction m with
  | nil => simp [mapFind] at h
  | cons entry rest ih =>
    obtain ⟨k, v0⟩ := entry
    simp only [List.map_cons, List.nodup_cons] at hkeys
    by_cases hk : k = key
    · subst hk
      have hnone : mapFind rest k = none := (mapFind_eq_none_iff rest k).mpr hkeys.1
      have := mapCount_eq_zero rest k hnone
      unfold mapCount at this ⊢
      simp [List.filter_cons, this]
    · simp only [mapFind, hk, if_false] at h
      have := ih hkeys.2 h
      unfold mapCount at this ⊢
      simp [List.filter_cons, hk, this]

theorem mapFind_append_new {κ ν : Type} [DecidableEq κ] (m : List (κ × ν)) (key : κ) (v : ν)
    (h : mapFind m key = none) : mapFind (m ++ [(key, v)]) key = some v := by
  rw [mapFind_append_single m key key v h]
  simp

theorem mapCount_append_new {κ ν : Type} [DecidableEq κ] (m : List (κ × ν)) (key : κ) (v : ν)
    (h : mapFind m key = none) : mapCount (m ++ [(key, v)]) key = 1 := by
  have := mapCount_eq_zero m key h
  unfold mapCount at this ⊢
  simp [List.filter_append, this]

theorem getCompilerOptions_ok (env : Environment) (s s1 : LFortranLspLanguageServer)
    (document : LspTextDocument) (options : CompilerOptions)
    (h : getCompilerOptions env s document = (.ok options, s1)) :
    mapFind s1.optionsByUri document.uri = some options ∧
      ((s.optionsByUri.map Prod.fst).Nodup →
        (s1.optionsByUri.map Prod.fst).Nodup ∧ mapCount s1.optionsByUri document.uri = 1) := by
  rw [getCompilerOptions_eq] at h
  cases hfind : mapFind s.optionsByUri document.uri with
  | some cached =>
    simp only [hfind, Prod.mk.injEq, Except.ok.injEq] at h
    obtain ⟨rfl, rfl⟩ := h
    exact ⟨hfind, fun hkeys => ⟨hkeys, mapCount_of_nodup _ _ _ hkeys hfind⟩⟩
  | none =>
    simp only [hfind] at h
    cases hcfg : env.getConfig document.uri with
    | error e => simp [hcfg] at h
    | ok config =>
      simp only [hcfg] at h
      cases hparse : env.parse (config.flags ++ [document.path]) with
      | error what => simp [hparse] at h
      | ok parsed =>
        simp only [hparse, Prod.mk.injEq, Except.ok.injEq] at h
        obtain ⟨rfl, rfl⟩ := h
        refine ⟨mapFind_append_new _ _ _ hfind, fun hkeys => ⟨?_, mapCount_append_new _ _ _ hfind⟩⟩
        simp only [List.map_append, List.map_cons, List.map_nil]
        rw [List.nodup_append]
        refine ⟨hkeys, by simp, ?_⟩
        intro k hk1 hk2
        simp only [List.mem_singleton] at hk2
        subst hk2
        exact (mapFind_eq_none_iff _ _).mp hfind hk1

theorem getCompilerOptions_hit (env : Environment) (s : LFortranLspLanguageServer)
    (document : LspTextDocument) (cached : CompilerOptions)
    (h : mapFind s.optionsByUri document.uri = some cached) :
    getCompilerOptions env s document = (.ok cached, s) := by
  rw [getCompilerOptions_eq, h]

/-- C12: in the sequential model of the options cache, a lookup for a URI that has an entry
returns that entry and leaves the cache as it is, whatever the workspace configuration and the
argument parser are (they are not consulted); so after a successful lookup, a second lookup for
the same URI, even under a changed configuration, returns the same options and the same cache,
and (the keys of a map being distinct) the cache holds exactly one entry for that URI. -/
theorem options_cache_hit (env changed : Environment) (s s1 : LFortranLspLanguageServer)
    (document again : LspTextDocument) (options : CompilerOptions)
    (hkeys : (s.optionsByUri.map Prod.fst).Nodup)
    (huri : again.uri = document.uri)
    (hfirst : getCompilerOptions env s document = (.ok options, s1)) :
    (∀ cached, mapFind s.optionsByUri document.uri = some cached →
      ∀ any : Environment, getCompilerOptions any s document = (.ok cached, s)) ∧
    getCompilerOptions changed s1 again = (.ok options, s1) ∧
    mapCount s1.optionsByUri document.uri = 1 := by
  obtain ⟨hfind, hcount⟩ := getCompilerOptions_ok env s s1 document options hfirst
  refine ⟨fun cached hcached any => getCompilerOptions_hit any s document cached hcached, ?_,
    (hcount hkeys).2⟩
  exact getCompilerOptions_hit changed s1 again options (huri ▸ hfind)

/-- C13: after `invalidateConfigCaches` the options cache has no entry for any URI, and the
next lookup for any document is a full rebuild: it fetches the configuration current at that
lookup, parses its flags followed by the document path, and returns and caches the parsed
options (with `continue_compilation` set); its result does not depend on what the cache held
before the invalidation. -/
theorem invalidate_then_rebuild (env : Environment) (s other : LFortranLspLanguageServer)
    (document : LspTextDocument) :
    (invalidateConfigCaches s).optionsByUri = [] ∧
    (∀ uri, mapFind (invalidateConfigCaches s).optionsByUri uri = none) ∧
    getCompilerOptions env (invalidateConfigCaches s) document =
      (match env.getConfig document.uri with
      | .error e => (.error e, invalidateConfigCaches s)
      | .ok config =>
        match env.parse (config.flags ++ [document.path]) with
        | .error what => (.error (.LspException .InvalidParams what), invalidateConfigCaches s)
        | .ok parsed =>
          (.ok { parsed with continue_compilation := true },
            { invalidateConfigCaches s with
              optionsByUri := [(document.uri, { parsed with continue_compilation := true })] })) ∧
    (getCompilerOptions env (invalidateConfigCaches s) document).1
      = (getCompilerOptions env (invalidateConfigCaches other) document).1 := by
  refine ⟨rfl, fun _ => rfl, ?_, ?_⟩
  · rw [getCompilerOptions_eq]
    simp only [invalidateConfigCaches, mapFind, List.nil_append]
  · rw [getCompilerOptions_eq, getCompilerOptions_eq]
    simp only [invalidateConfigCaches, mapFind, List.nil_append]
    cases env.getConfig document.uri with
    | error e => rfl
    | ok config =>
      simp only
      cases env.parse (config.flags ++ [document.path]) <;> rfl

/-- C14: when the configuration of the document is fetched, the options lookup fails exactly
when the URI is not cached and parsing the assembled arguments (flags, then the document
path) fails; it then fails with an `InvalidParams` error carrying the parser's message and
leaves the cache as it was: no entry is inserted and no other entry changes. -/
theorem parse_failure_invalid_params (env : Environment) (s : LFortranLspLanguageServer)
    (document : LspTextDocument) (config : LFortranLspConfig)
    (hcfg : env.getConfig document.uri = .ok config) :
    (∀ what, mapFind s.optionsByUri document.uri = none →
      env.parse (config.flags ++ [document.path]) = .error what →
      getCompilerOptions env s document = (.error (.LspException .InvalidParams what), s)) ∧
    (∀ e, (getCompilerOptions env s document).1 = .error e ↔
      (mapFind s.optionsByUri document.uri = none ∧
        ∃ what, env.parse (config.flags ++ [document.path]) = .error what ∧
          e = .LspException .InvalidParams what)) ∧
    (∀ e, (getCompilerOptions env s document).1 = .error e →
      (getCompilerOptions env s document).2 = s) := by
  rw [getCompilerOptions_eq]
  simp only [hcfg]
  cases hfind : mapFind s.optionsByUri document.uri with
  | some cached => simp
  | none =>
    cases hparse : env.parse (config.flags ++ [document.path]) with
    | error what =>
      refine ⟨?_, ?_, ?_⟩
      · intro what2 _ h
        cases h
        rfl
      · intro e
        simp only [Except.error.injEq, true_and, exists_eq_left']
        exact eq_comm
      · intro e _
        rfl
    | ok parsed => simp

theorem ofThrown_ne_outOfBounds (e : Exception) :
    ValidationOutcome.ofThrown e ≠ .outOfBounds := by
  unfold ValidationOutcome.ofThrown
  split <;> simp

theorem publishedDiagnostics_trace (env : Environment) (params : PublishDiagnosticsParams) :
    publishedDiagnostics (traceNotifications env params ++ [.publishDiagnostics params])
      = [params] := by
  unfold traceNotifications
  split <;> rfl

theorem validateTask_not_outOfBounds (env : Environment) (s : LFortranLspLanguageServer)
    (snapshot later : LspTextDocument) :
    (validateTask env s snapshot later).1 ≠ .outOfBounds := by
  unfold validateTask
  cases hopts : getCompilerOptions env s snapshot with
  | mk result s1 =>
    cases result with
    | error e => exact ofThrown_ne_outOfBounds e
    | ok compilerOptions =>
      simp only
      cases env.lfortran.showErrors snapshot.path snapshot.text compilerOptions with
      | error e => exact ofThrown_ne_outOfBounds e
      | ok highlights =>
        simp only
        cases getLFortranConfig env later.uri with
        | error e => exact ofThrown_ne_outOfBounds e
        | ok config =>
          simp only [buildDiagnostics_eq env.source highlights _ (numProblems_le highlights _)]
          simp

/-- C16 (the code at a failing input): in the workspace `Example.aborting` the compiler
options are obtained and the error collection throws a value whose class does not derive
from `std::exception`. Neither handler of the task (both are `catch (std::exception &e)`)
catches it: nothing is published, and the task does not complete normally, the thrown value
leaves it. -/
theorem validate_failure_escapes :
    (getCompilerOptions Example.aborting .fresh Example.document).1 = .ok Example.options ∧
    Example.aborting.lfortran.showErrors Example.document.path Example.document.text
      Example.options = .error (.nonStandard "SemanticAbort") ∧
    (validate Example.aborting .fresh Example.document).1
      = .escaped (.nonStandard "SemanticAbort") ∧
    (validate Example.aborting .fresh Example.document).1
      ≠ .caught (.nonStandard "SemanticAbort") := by
  decide

/-- C16 (amended): a validation task never reads past the end of the issue list. If
obtaining the compiler options, collecting the errors or fetching the configuration throws
`e`, the task sends no notification; when `e` derives from `std::exception` a handler of
the task catches it and the task ends normally, and when it does not, no handler catches
it and it leaves the task. If none of the three throws, the task sends, after the trace
notification (if tracing is on), exactly one diagnostics notification. -/
theorem validate_isolates_std_failures (env : Environment) (s : LFortranLspLanguageServer)
    (document : LspTextDocument) :
    (validate env s document).1 ≠ .outOfBounds ∧
    (∀ e, (getCompilerOptions env s document).1 = .error e →
      (validate env s document).1 = (if e.isStdException then .caught e else .escaped e) ∧
      (validate env s document).2.2 = []) ∧
    (∀ compilerOptions e, (getCompilerOptions env s document).1 = .ok compilerOptions →
      env.lfortran.showErrors document.path document.text compilerOptions = .error e →
      (validate env s document).1 = (if e.isStdException then .caught e else .escaped e) ∧
      (validate env s document).2.2 = []) ∧
    (∀ compilerOptions highlights e,
      (getCompilerOptions env s document).1 = .ok compilerOptions →
      env.lfortran.showErrors document.path document.text compilerOptions = .ok highlights →
      getLFortranConfig env document.uri = .error e →
      (validate env s document).1 = (if e.isStdException then .caught e else .escaped e) ∧
      (validate env s document).2.2 = []) ∧
    (∀ compilerOptions highlights config,
      (getCompilerOptions env s document).1 = .ok compilerOptions →
      env.lfortran.showErrors document.path document.text compilerOptions = .ok highlights →
      getLFortranConfig env document.uri = .ok config →
      ∃ params, (validate env s document).1 = .published params ∧
        (validate env s document).2.2
          = traceNotifications env params ++ [.publishDiagnostics params] ∧
        publishedDiagnostics (validate env s document).2.2 = [params]) := by
  refine ⟨validateTask_not_outOfBounds env s document document, ?_, ?_, ?_, ?_⟩
  · intro e h
    unfold validate validateTask
    cases hopts : getCompilerOptions env s document with
    | mk result s1 =>
      rw [hopts] at h
      simp only at h
      subst h
      exact ⟨rfl, rfl⟩
  · intro compilerOptions e h herr
    unfold validate validateTask
    cases hopts : getCompilerOptions env s document with
    | mk result s1 =>
      rw [hopts] at h
      simp only at h
      subst h
      simp [herr, ValidationOutcome.ofThrown]
  · intro compilerOptions highlights e h herr hcfg
    unfold validate validateTask
    cases hopts : getCompilerOptions env s document with
    | mk result s1 =>
      rw [hopts] at h
      simp only at h
      subst h
      simp [herr, hcfg, ValidationOutcome.ofThrown]
  · intro compilerOptions highlights config h herr hcfg
    cases hopts : getCompilerOptions env s document with
    | mk result s1 =>
      rw [hopts] at h
      simp only at h
      subst h
      unfold validate
      rw [validateTask_eq_published env s s1 document document compilerOptions highlights
        config hopts herr hcfg]
      exact ⟨_, rfl, rfl, publishedDiagnostics_trace env _⟩

/-- C17: the severity mapping is a total function with Error to Error, Warning to Warning,
Note to Information, Help to Hint and every other level to Warning; and the diagnostic
published for the issue `highlights[i]` carries this mapping applied to the level of that
issue as its severity. -/
theorem severity_mapping (env : Environment) (s s1 : LFortranLspLanguageServer)
    (document : LspTextDocument) (compilerOptions : CompilerOptions)
    (highlights : List error_highlight) (config : LFortranLspConfig)
    (i : Nat) (highlight : error_highlight)
    (hopts : getCompilerOptions env s document = (.ok compilerOptions, s1))
    (herr : env.lfortran.showErrors document.path document.text compilerOptions = .ok highlights)
    (hcfg : getLFortranConfig env document.uri = .ok config)
    (hi : i < numProblems highlights config.maxNumberOfProblems)
    (hget : highlights[i]? = some highlight) :
    (diagnosticLevelToLspSeverity .Error = .Error ∧
      diagnosticLevelToLspSeverity .Warning = .Warning ∧
      diagnosticLevelToLspSeverity .Note = .Information ∧
      diagnosticLevelToLspSeverity .Help = .Hint ∧
      ∀ raw, diagnosticLevelToLspSeverity (.other raw) = .Warning) ∧
    ∃ params diagnostic,
      (validate env s document).1 = .published params ∧
      params.diagnostics[i]? = some diagnostic ∧
      diagnostic.severity = some (diagnosticLevelToLspSeverity highlight.severity) := by
  refine ⟨⟨rfl, rfl, rfl, rfl, fun _ => rfl⟩, ?_⟩
  rw [validate_eq_published env s s1 document compilerOptions highlights config hopts herr hcfg]
  refine ⟨_, buildDiagnostic env.source highlight, rfl, ?_, rfl⟩
  simp [List.getElem?_map, List.getElem?_take, hi, hget]

/-- C11 (the code at a failing input): the occurrence search returns `Example.spanning`, whose
second occurrence is in the included file `b.f90` (it resolves to `/w/inc/b.f90`, not to the
document `/w/a.f90`); `rename` returns a text edit for it too, at the coordinates it has in
the other file, under the URI of the requesting document. -/
theorem rename_edits_other_file :
    resolve Example.fs "b.f90" Example.atOrigin = .ok "/w/inc/b.f90" ∧
    isKept Example.fs Example.document Example.atOrigin
      { symbol_name := "x", first_line := 10, first_column := 1, last_line := 10
        last_column := 1, filename := "b.f90", parent_index := -1, symbol_type := .Variable }
      = false ∧
    (receiveTextDocument_rename (Example.env [] Example.spanning) .fresh
        Example.renameParams).1 =
      .ok (.workspaceEdit
        { changes := some
            [("file:///w/a.f90",
              [{ range := { start := { line := 2, character := 4 }
                            stop := { line := 2, character := 4 } }
                 newText := "renamed" },
               { range := { start := { line := 9, character := 0 }
                            stop := { line := 9, character := 0 } }
                 newText := "renamed" }])] }) :=
  ⟨by decide, by decide, by decide⟩

theorem IndexTree.renderList_cons_some (symbols : List document_symbols) (tree : IndexTree)
    (rest : List IndexTree) (rendered : List DocumentSymbol)
    (h : IndexTree.renderList symbols (tree :: rest) = some rendered) :
    ∃ first others, tree.render symbols = some first ∧
      IndexTree.renderList symbols rest = some others ∧ rendered = first :: others := by
  simp only [IndexTree.renderList] at h
  cases hfirst : tree.render symbols with
  | none => simp [hfirst] at h
  | some first =>
    cases hrest : IndexTree.renderList symbols rest with
    | none => simp [hfirst, hrest] at h
    | some others =>
      simp only [hfirst, hrest, Option.some.injEq] at h
      exact ⟨first, others, rfl, rfl, h.symm⟩

theorem IndexTree.render_fields (symbols : List document_symbols) (i : Nat)
    (children : List IndexTree) (result : DocumentSymbol)
    (h : (IndexTree.node i children).render symbols = some result) :
    ∃ symbol, symbols[i]? = some symbol ∧
      result.name = symbol.symbol_name ∧
      result.kind = asrSymbolTypeToLspSymbolKind symbol.symbol_type ∧
      result.range = symbolRange symbol ∧ result.selectionRange = symbolRange symbol ∧
      (result.children = none ↔ children = []) ∧ result.children ≠ some [] := by
  rw [IndexTree.render] at h
  cases hget : symbols[i]? with
  | none => simp [hget] at h
  | some symbol =>
    simp only [hget] at h
    refine ⟨symbol, rfl, ?_⟩
    cases children with
    | nil =>
      simp only [Option.some.injEq] at h
      subst h
      simp [init, DocumentSymbol.name, DocumentSymbol.kind, DocumentSymbol.range,
        DocumentSymbol.selectionRange, DocumentSymbol.children]
    | cons child rest =>
      simp only at h
      cases hrender : IndexTree.renderList symbols (child :: rest) with
      | none => simp [hrender] at h
      | some rendered =>
        obtain ⟨first, others, _, _, rfl⟩ :=
          IndexTree.renderList_cons_some symbols child rest rendered hrender
        simp only [hrender, Option.some.injEq] at h
        subst h
        simp [init, DocumentSymbol.emplaceChildren, DocumentSymbol.name, DocumentSymbol.kind,
          DocumentSymbol.range, DocumentSymbol.selectionRange, DocumentSymbol.children]

mutual
theorem IndexTree.render_nodes (symbols : List document_symbols) :
    ∀ (tree : IndexTree) (result : DocumentSymbol), tree.render symbols = some result →
      tree.nodes.map (IndexTree.render symbols) = result.nodes.map some
  | .node i children, result, h => by
    have h2 := h
    rw [IndexTree.render] at h2
    cases hget : symbols[i]? with
    | none => simp [hget] at h2
    | some symbol =>
      simp only [hget] at h2
      cases children with
      | nil =>
        simp only [Option.some.injEq] at h2
        subst h2
        simp [IndexTree.nodes, IndexTree.nodesList, init, DocumentSymbol.nodes,
          IndexTree.render, hget]
      | cons child rest =>
        simp only at h2
        cases hrender : IndexTree.renderList symbols (child :: rest) with
        | none => simp [hrender] at h2
        | some rendered =>
          simp only [hrender, Option.some.injEq] at h2
          have ih := IndexTree.renderList_nodes symbols (child :: rest) rendered hrender
          subst h2
          simp only [IndexTree.nodes, List.map_cons, h, init, DocumentSymbol.emplaceChildren,
            DocumentSymbol.nodes, ih]
theorem IndexTree.renderList_nodes (symbols : List document_symbols) :
    ∀ (forest : List IndexTree) (rendered : List DocumentSymbol),
      IndexTree.renderList symbols forest = some rendered →
      (IndexTree.nodesList forest).map (IndexTree.render symbols)
        = (DocumentSymbol.nodesList rendered).map some
  | [], rendered, h => by
    simp only [IndexTree.renderList, Option.some.injEq] at h
    subst h
    simp [IndexTree.nodesList, DocumentSymbol.nodesList]
  | tree :: rest, rendered, h => by
    obtain ⟨first, others, hfirst, hrest, rfl⟩ :=
      IndexTree.renderList_cons_some symbols tree rest rendered h
    simp [IndexTree.nodesList, DocumentSymbol.nodesList,
      IndexTree.render_nodes symbols tree first hfirst,
      IndexTree.renderList_nodes symbols rest others hrest]
end

theorem documentSymbol_hierarchical_returned (env : Environment)
    (s s1 : LFortranLspLanguageServer) (params : DocumentSymbolParams)
    (document : LspTextDocument) (compilerOptions : CompilerOptions)
    (symbols : List document_symbols) (documentSymbols : List DocumentSymbol)
    (hdoc : env.getDocument params.uri = .ok document)
    (hopts : getCompilerOptions env s document = (.ok compilerOptions, s1))
    (hsym : env.lfortran.getSymbols document.path document.text compilerOptions = .ok symbols)
    (hhier : s1.clientSupportsHierarchicalDocumentSymbols = true)
    (hres : (receiveTextDocument_documentSymbol env s params).1
      = some (.ok (.documentSymbols documentSymbols))) :
    ∃ forest : List IndexTree,
      IndexTree.renderList symbols forest = some documentSymbols ∧
      forest.map IndexTree.index
        = (symbols.enum.filter (keptRoot env.fs document compilerOptions)).map Prod.fst ∧
      (∀ t ∈ forest, GoodTree env.fs document compilerOptions symbols 0 t) ∧
      (IndexTree.preorderList forest).Nodup := by
  rw [documentSymbol_hierarchical_eq env s s1 params document compilerOptions symbols hdoc
    hopts hsym hhier] at hres
  cases hindex : indexLoop env.fs document compilerOptions symbols 0 symbols
      { childrenBySymbol := [], roots := [] } with
  | error e => simp [hindex] at hres
  | ok index =>
    obtain ⟨forest, built, hwalk, hrender, hroots, hgood, hnodup⟩ :=
      hierarchical_build env.fs document compilerOptions symbols index hindex
    simp only [hindex, hwalk, Option.some.injEq, Except.ok.injEq,
      TextDocument_DocumentSymbolResult.documentSymbols.injEq] at hres
    subst hres
    exact ⟨forest, hrender, hroots, hgood, hnodup⟩

theorem rendered_node_of_forest (symbols : List document_symbols) (forest : List IndexTree)
    (documentSymbols : List DocumentSymbol)
    (hrender : IndexTree.renderList symbols forest = some documentSymbols) :
    (∀ u ∈ IndexTree.nodesList forest,
      ∃ result ∈ DocumentSymbol.nodesList documentSymbols, u.render symbols = some result) ∧
    (∀ result ∈ DocumentSymbol.nodesList documentSymbols,
      ∃ u ∈ IndexTree.nodesList forest, u.render symbols = some result) := by
  have heq := IndexTree.renderList_nodes symbols forest documentSymbols hrender
  constructor
  · intro u hu
    have hmem : u.render symbols ∈ (DocumentSymbol.nodesList documentSymbols).map some := by
      rw [← heq]
      exact List.mem_map_of_mem _ hu
    obtain ⟨result, hresult, hsome⟩ := List.mem_map.mp hmem
    exact ⟨result, hresult, hsome.symm⟩
  · intro result hresult
    have hmem : some result ∈ (IndexTree.nodesList forest).map (IndexTree.render symbols) := by
      rw [heq]
      exact List.mem_map_of_mem _ hresult
    obtain ⟨u, hu, hsome⟩ := List.mem_map.mp hmem
    exact ⟨u, hu, hsome⟩

theorem symbolInformation_ok (fs : FileSystem) (compilerOptions : CompilerOptions)
    (symbol : document_symbols) (info : SymbolInformation)
    (h : symbolInformation fs compilerOptions symbol = .ok info) :
    ∃ path, resolve fs symbol.filename compilerOptions = .ok path ∧
      info = { name := "", kind := none
               location := { uri := "file://" ++ path, range := symbolRange symbol } } := by
  unfold symbolInformation at h
  split at h
  · cases h
  · rename_i path hp
    exact ⟨path, hp, (Except.ok.inj h).symm⟩

theorem symbolRange_of_pos (symbol : document_symbols)
    (hL1 : 1 ≤ symbol.first_line ∧ symbol.first_line < UINT_MOD)
    (hC1 : 1 ≤ symbol.first_column ∧ symbol.first_column < UINT_MOD)
    (hL2 : 1 ≤ symbol.last_line ∧ symbol.last_line < UINT_MOD) :
    symbolRange symbol =
      { start := { line := symbol.first_line - 1, character := symbol.first_column - 1 }
        stop := { line := symbol.last_line - 1, character := symbol.last_column } } := by
  simp [symbolRange, uintPred_of_pos _ hL1.1 hL1.2, uintPred_of_pos _ hC1.1 hC1.2,
    uintPred_of_pos _ hL2.1 hL2.2]

/-- C18: let `symbol`, the `i`-th symbol of the flat list, have 1-based coordinates
`(L1, C1, L2, C2)` with lines and start column at least 1 (and 32-bit). In the flat shape the
`i`-th record of the result has `location.range` with start `(L1 - 1, C1 - 1)` and end
`(L2 - 1, C2)`. In the hierarchical shape every node of the result, at every depth, has equal
`range` and `selectionRange`, and every node that stands for symbol `i` has both equal to
start `(L1 - 1, C1 - 1)`, end `(L2 - 1, C2)`. The end column is not decremented. -/
theorem documentSymbol_range (env : Environment) (s s1 : LFortranLspLanguageServer)
    (params : DocumentSymbolParams) (document : LspTextDocument)
    (compilerOptions : CompilerOptions) (symbols : List document_symbols)
    (i : Nat) (symbol : document_symbols)
    (hdoc : env.getDocument params.uri = .ok document)
    (hopts : getCompilerOptions env s document = (.ok compilerOptions, s1))
    (hsym : env.lfortran.getSymbols document.path document.text compilerOptions = .ok symbols)
    (hget : symbols[i]? = some symbol)
    (hL1 : 1 ≤ symbol.first_line ∧ symbol.first_line < UINT_MOD)
    (hC1 : 1 ≤ symbol.first_column ∧ symbol.first_column < UINT_MOD)
    (hL2 : 1 ≤ symbol.last_line ∧ symbol.last_line < UINT_MOD) :
    (s1.clientSupportsHierarchicalDocumentSymbols = false →
      ∀ infos, (receiveTextDocument_documentSymbol env s params).1
          = some (.ok (.symbolInformations infos)) →
        ∃ info, infos[i]? = some info ∧
          info.location.range =
            { start := { line := symbol.first_line - 1, character := symbol.first_column - 1 }
              stop := { line := symbol.last_line - 1, character := symbol.last_column } }) ∧
    (s1.clientSupportsHierarchicalDocumentSymbols = true →
      ∀ documentSymbols, (receiveTextDocument_documentSymbol env s params).1
          = some (.ok (.documentSymbols documentSymbols)) →
        (∀ result ∈ DocumentSymbol.nodesList documentSymbols,
          result.range = result.selectionRange) ∧
        ∃ forest : List IndexTree,
          IndexTree.renderList symbols forest = some documentSymbols ∧
          ∀ u ∈ IndexTree.nodesList forest, u.index = i →
            ∃ result ∈ DocumentSymbol.nodesList documentSymbols,
              u.render symbols = some result ∧
              result.range =
                { start := { line := symbol.first_line - 1
                             character := symbol.first_column - 1 }
                  stop := { line := symbol.last_line - 1
                            character := symbol.last_column } } ∧
              result.selectionRange = result.range) := by
  have hrange := symbolRange_of_pos symbol hL1 hC1 hL2
  constructor
  · intro hflat infos hres
    rw [documentSymbol_flat_eq env s s1 params document compilerOptions symbols hdoc hopts
      hsym hflat] at hres
    cases hbuilt : exceptMapM (symbolInformation env.fs compilerOptions) symbols with
    | error e => simp [hbuilt] at hres
    | ok built =>
      simp only [hbuilt, Option.some.injEq, Except.ok.injEq,
        TextDocument_DocumentSymbolResult.symbolInformations.injEq] at hres
      subst hres
      obtain ⟨info, hinfo, hf⟩ := (exceptMapM_ok_getElem _ _ _ hbuilt).2 i symbol hget
      obtain ⟨path, _, rfl⟩ := symbolInformation_ok _ _ _ _ hf
      exact ⟨_, hinfo, hrange⟩
  · intro hhier documentSymbols hres
    obtain ⟨forest, hrender, _, _, _⟩ := documentSymbol_hierarchical_returned env s s1 params
      document compilerOptions symbols documentSymbols hdoc hopts hsym hhier hres
    obtain ⟨hforward, hbackward⟩ := rendered_node_of_forest symbols forest documentSymbols
      hrender
    constructor
    · intro result hresult
      obtain ⟨u, _, hu⟩ := hbackward result hresult
      cases u with
      | node j children =>
        obtain ⟨found, _, _, _, h1, h2, _⟩ :=
          IndexTree.render_fields symbols j children result hu
        rw [h1, h2]
    · refine ⟨forest, hrender, ?_⟩
      intro u hu hindex
      obtain ⟨result, hresult, hrendered⟩ := hforward u hu
      cases u with
      | node j children =>
        simp only [IndexTree.index] at hindex
        subst hindex
        obtain ⟨found, hfound, _, _, h1, h2, _⟩ :=
          IndexTree.render_fields symbols j children result hrendered
        rw [hget] at hfound
        cases hfound
        exact ⟨result, hresult, hrendered, h1.trans hrange, h2.trans h1.symm⟩

/-- C19: in every tree returned by the hierarchical build, at every depth, the `children`
member of a node is never a present but empty list, and it is absent exactly when no kept
symbol (one whose filename resolves to the document path) names the symbol of that node as its
parent. -/
theorem children_absent_or_nonempty (env : Environment) (s s1 : LFortranLspLanguageServer)
    (params : DocumentSymbolParams) (document : LspTextDocument)
    (compilerOptions : CompilerOptions) (symbols : List document_symbols)
    (documentSymbols : List DocumentSymbol)
    (hdoc : env.getDocument params.uri = .ok document)
    (hopts : getCompilerOptions env s document = (.ok compilerOptions, s1))
    (hsym : env.lfortran.getSymbols document.path document.text compilerOptions = .ok symbols)
    (hhier : s1.clientSupportsHierarchicalDocumentSymbols = true)
    (hres : (receiveTextDocument_documentSymbol env s params).1
      = some (.ok (.documentSymbols documentSymbols))) :
    ∃ forest : List IndexTree,
      IndexTree.renderList symbols forest = some documentSymbols ∧
      ∀ result ∈ DocumentSymbol.nodesList documentSymbols,
        result.children ≠ some [] ∧
        ∃ u ∈ IndexTree.nodesList forest,
          u.render symbols = some result ∧
          (result.children = none ↔
            keptChildren env.fs document compilerOptions symbols u.index = []) := by
  obtain ⟨forest, hrender, _, hgood, _⟩ := documentSymbol_hierarchical_returned env s s1 params
    document compilerOptions symbols documentSymbols hdoc hopts hsym hhier hres
  obtain ⟨_, hbackward⟩ := rendered_node_of_forest symbols forest documentSymbols hrender
  refine ⟨forest, hrender, ?_⟩
  intro result hresult
  obtain ⟨u, hu, hrendered⟩ := hbackward result hresult
  obtain ⟨t, ht, hut⟩ := (IndexTree.mem_nodesList forest u).mp hu
  have hchildren := (hgood t ht).children u hut
  cases u with
  | node j children =>
    obtain ⟨_, _, _, _, _, _, habsent, hnonempty⟩ :=
      IndexTree.render_fields symbols j children result hrendered
    refine ⟨hnonempty, _, hu, hrendered, ?_⟩
    rw [habsent]
    simp only [IndexTree.children, IndexTree.index] at hchildren ⊢
    constructor
    · intro hnil
      rw [hnil] at hchildren
      simpa using hchildren.symm
    · intro hnil
      rw [hnil] at hchildren
      simpa using hchildren

theorem options_cache_hit_witness :
    (Example.cached.optionsByUri.map Prod.fst).Nodup ∧
    getCompilerOptions (Example.env [] []) .fresh Example.document
      = (.ok Example.options, Example.cached) ∧
    getCompilerOptions Example.reconfigured Example.cached Example.document
      = (.ok Example.options, Example.cached) ∧
    mapCount Example.cached.optionsByUri Example.document.uri = 1 :=
  ⟨by decide, by decide,
    (options_cache_hit (Example.env [] []) Example.reconfigured .fresh Example.cached
      Example.document Example.document Example.options (by decide) rfl (by decide)).2⟩

theorem parse_failure_invalid_params_witness :
    mapFind LFortranLspLanguageServer.fresh.optionsByUri Example.document.uri = none ∧
    Example.rejecting.parse (["-c"] ++ [Example.document.path]) = .error "unknown option" ∧
    getCompilerOptions Example.rejecting .fresh Example.document
      = (.error (.LspException .InvalidParams "unknown option"), .fresh) :=
  ⟨by decide, by decide,
    (parse_failure_invalid_params Example.rejecting .fresh Example.document
      { flags := ["-c"], maxNumberOfProblems := 3 } (by decide)).1 "unknown option"
      (by decide) (by decide)⟩

theorem validate_isolates_std_failures_witness :
    ((validate Example.throwing .fresh Example.document).1 = .caught (.stdException "boom") ∧
      (validate Example.throwing .fresh Example.document).2.2 = []) ∧
    ((validate Example.aborting .fresh Example.document).1
        = .escaped (.nonStandard "SemanticAbort") ∧
      (validate Example.aborting .fresh Example.document).2.2 = []) ∧
    (validate (Example.tracing Example.tenIssues) .fresh Example.document).2.2.length = 2 ∧
    ∃ params,
      (validate (Example.tracing Example.tenIssues) .fresh Example.document).1
        = .published params ∧
      (validate (Example.tracing Example.tenIssues) .fresh Example.document).2.2
        = traceNotifications (Example.tracing Example.tenIssues) params ++
            [.publishDiagnostics params] ∧
      publishedDiagnostics
          (validate (Example.tracing Example.tenIssues) .fresh Example.document).2.2
        = [params] :=
  ⟨(validate_isolates_std_failures Example.throwing .fresh Example.document).2.2.1
      Example.options (.stdException "boom") (by decide) (by decide),
    (validate_isolates_std_failures Example.aborting .fresh Example.document).2.2.1
      Example.options (.nonStandard "SemanticAbort") (by decide) (by decide),
    by decide,
    (validate_isolates_std_failures (Example.tracing Example.tenIssues) .fresh
      Example.document).2.2.2.2 Example.options Example.tenIssues
      { flags := ["-c"], maxNumberOfProblems := 3 } (by decide) (by decide) (by decide)⟩

theorem severity_mapping_witness :
    (2 < numProblems Example.tenIssues 3 ∧
      Example.tenIssues[2]? = some (Example.issue 2)) ∧
    ∃ params diagnostic,
      (validate (Example.env Example.tenIssues []) .fresh Example.document).1
        = .published params ∧
      params.diagnostics[2]? = some diagnostic ∧
      diagnostic.severity = some .Error :=
  ⟨⟨by decide, by decide⟩,
    (severity_mapping (Example.env Example.tenIssues []) .fresh Example.cached
      Example.document Example.options Example.tenIssues
      { flags := ["-c"], maxNumberOfProblems := 3 } 2 (Example.issue 2)
      (by decide) (by decide) (by decide) (by decide) (by decide)).2⟩

theorem documentSymbol_range_witness :
    (∃ info,
      [({ name := "", kind := none
          location := { uri := "file:///w/a.f90", range := Example.outlineRange } } :
          SymbolInformation),
        { name := "", kind := none
          location := { uri := "file:///w/a.f90", range := Example.outlineRange } }][1]?
        = some info ∧
      info.location.range = Example.outlineRange) ∧
    (∀ result ∈ DocumentSymbol.nodesList Example.outline,
      result.range = result.selectionRange) ∧
    ∃ forest : List IndexTree,
      IndexTree.renderList Example.rootAndChild forest = some Example.outline ∧
      ∀ u ∈ IndexTree.nodesList forest, u.index = 1 →
        ∃ result ∈ DocumentSymbol.nodesList Example.outline,
          u.render Example.rootAndChild = some result ∧
          result.range = Example.outlineRange ∧
          result.selectionRange = result.range :=
  ⟨(documentSymbol_range (Example.env [] Example.rootAndChild) .fresh Example.cached
      Example.symbolParams Example.document Example.options Example.rootAndChild 1
      (Example.symbol "child" "a.f90" 0) (by decide) (by decide) (by decide) (by decide)
      (by decide) (by decide) (by decide)).1 (by decide) _ rfl,
    (documentSymbol_range (Example.env [] Example.rootAndChild) Example.hierarchical
      Example.hierarchicalCached Example.symbolParams Example.document Example.options
      Example.rootAndChild 1 (Example.symbol "child" "a.f90" 0) (by decide) (by decide)
      (by decide) (by decide) (by decide) (by decide) (by decide)).2 (by decide) _ rfl⟩

theorem children_absent_or_nonempty_witness :
    (receiveTextDocument_documentSymbol (Example.env [] Example.rootAndChild)
        Example.hierarchical Example.symbolParams).1
      = some (.ok (.documentSymbols Example.outline)) ∧
    ∃ forest : List IndexTree,
      IndexTree.renderList Example.rootAndChild forest = some Example.outline ∧
      ∀ result ∈ DocumentSymbol.nodesList Example.outline,
        result.children ≠ some [] ∧
        ∃ u ∈ IndexTree.nodesList forest,
          u.render Example.rootAndChild = some result ∧
          (result.children = none ↔
            keptChildren Example.fs Example.document Example.options Example.rootAndChild
              u.index = []) :=
  ⟨rfl,
    children_absent_or_nonempty (Example.env [] Example.rootAndChild) Example.hierarchical
      Example.hierarchicalCached Example.symbolParams Example.document Example.options
      Example.rootAndChild Example.outline (by decide) (by decide) (by decide) (by decide)
      rfl⟩

theorem indexLoop_fails (fs : FileSystem) (document : LspTextDocument)
    (compilerOptions : CompilerOptions) (symbols rest : List document_symbols) :
    ∀ (i : Nat) (index : SymbolIndex),
      (∃ symbol ∈ rest, isKept fs document compilerOptions symbol = true ∧
        (symbols.length : Int) ≤ symbol.parent_index) →
      ∃ e, indexLoop fs document compilerOptions symbols i rest index = .error e := by
  induction rest with
  | nil =>
    intro i index h
    obtain ⟨symbol, hmem, _⟩ := h
    cases hmem
  | cons head rest ih =>
    intro i index h
    obtain ⟨symbol, hmem, hkept, hpar⟩ := h
    unfold indexLoop
    cases hres : resolve fs head.filename compilerOptions with
    | error e => exact ⟨e, rfl⟩
    | ok resolved =>
      simp only
      rcases List.mem_cons.mp hmem with rfl | hrest
      · have hpath : document.path = resolved := by
          simpa [isKept, hres] using hkept
        have hnonneg : symbol.parent_index ≥ 0 := by omega
        have hnone : symbols[symbol.parent_index.toNat]? = none :=
          List.getElem?_eq_none (by omega)
        simp only [hpath, if_true, hnonneg, hnone]
        exact ⟨_, rfl⟩
      · have hlater := fun j idx => ih j idx ⟨symbol, hrest, hkept, hpar⟩
        by_cases hpath : document.path = resolved
        · simp only [hpath, if_true]
          by_cases hnonneg : head.parent_index ≥ 0
          · simp only [hnonneg, if_true]
            cases symbols[head.parent_index.toNat]? with
            | none => exact ⟨_, rfl⟩
            | some parent => exact hlater _ _
          · simp only [hnonneg, if_false]
            exact hlater _ _
        · simp only [hpath, if_false]
          exact hlater _ _

theorem indexLoop_error_kind (fs : FileSystem) (document : LspTextDocument)
    (compilerOptions : CompilerOptions) (symbols rest : List document_symbols)
    (hresolve : ∀ symbol ∈ rest, ∃ path, resolve fs symbol.filename compilerOptions = .ok path) :
    ∀ (i : Nat) (index : SymbolIndex) (e : Exception),
      indexLoop fs document compilerOptions symbols i rest index = .error e →
      ∃ what, e = .stdException what := by
  induction rest with
  | nil =>
    intro i index e h
    simp [indexLoop] at h
  | cons head rest ih =>
    intro i index e h
    have ih2 := ih (fun x hx => hresolve x (List.mem_cons_of_mem _ hx))
    obtain ⟨path, hpath⟩ := hresolve head (List.mem_cons_self _ _)
    unfold indexLoop at h
    simp only [hpath] at h
    by_cases hkept : document.path = path
    · simp only [hkept, if_true] at h
      by_cases hnonneg : head.parent_index ≥ 0
      · simp only [hnonneg, if_true] at h
        cases hat : symbols[head.parent_index.toNat]? with
        | none =>
          simp only [hat, Except.error.injEq] at h
          exact ⟨_, h.symm⟩
        | some parent =>
          simp only [hat] at h
          exact ih2 _ _ e h
      · simp only [hnonneg, if_false] at h
        exact ih2 _ _ e h
    · simp only [hkept, if_false] at h
      exact ih2 _ _ e h

mutual
theorem tree_keptChain (fs : FileSystem) (document : LspTextDocument)
    (compilerOptions : CompilerOptions) (symbols : List document_symbols) :
    ∀ (tree : IndexTree) (d : Nat),
      keptChainIn fs document compilerOptions symbols d tree.index = true →
      (∀ u ∈ tree.nodes, u.children.map IndexTree.index
        = (keptChildren fs document compilerOptions symbols u.index).map Prod.fst) →
      ∀ j ∈ tree.preorder, ∃ e, keptChainIn fs document compilerOptions symbols e j = true
  | .node i children, d, hroot, hspec => by
    intro j hj
    simp only [IndexTree.preorder, List.mem_cons] at hj
    rcases hj with rfl | hj
    · exact ⟨d, hroot⟩
    · have hself := hspec (.node i children) (by simp [IndexTree.nodes])
      simp only [IndexTree.children, IndexTree.index] at hself hroot
      refine forest_keptChain fs document compilerOptions symbols children (d + 1) ?_ ?_ j hj
      · intro c hc
        have hmem : c.index ∈ (keptChildren fs document compilerOptions symbols i).map
            Prod.fst := by
          rw [← hself]
          exact List.mem_map_of_mem _ hc
        obtain ⟨entry, hentry, hidx⟩ := List.mem_map.mp hmem
        obtain ⟨hget, hkept, hpar⟩ := mem_keptChildren _ _ _ _ _ _ hentry
        rw [← hidx]
        have h0 : 0 ≤ entry.2.parent_index := by omega
        have ht : entry.2.parent_index.toNat = i := by omega
        simp [keptChainIn, hget, hkept, h0, ht, hroot]
      · intro u hu
        exact hspec u (by
          simp only [IndexTree.nodes, List.mem_cons]
          exact Or.inr hu)
theorem forest_keptChain (fs : FileSystem) (document : LspTextDocument)
    (compilerOptions : CompilerOptions) (symbols : List document_symbols) :
    ∀ (forest : List IndexTree) (d : Nat),
      (∀ t ∈ forest, keptChainIn fs document compilerOptions symbols d t.index = true) →
      (∀ u ∈ IndexTree.nodesList forest, u.children.map IndexTree.index
        = (keptChildren fs document compilerOptions symbols u.index).map Prod.fst) →
      ∀ j ∈ IndexTree.preorderList forest,
        ∃ e, keptChainIn fs document compilerOptions symbols e j = true
  | [], _, _, _ => by
    intro j hj
    simp [IndexTree.preorderList] at hj
  | tree :: rest, d, hroots, hspec => by
    intro j hj
    simp only [IndexTree.preorderList, List.mem_append] at hj
    rcases hj with hj | hj
    · exact tree_keptChain fs document compilerOptions symbols tree d
        (hroots tree (List.mem_cons_self _ _))
        (fun u hu => hspec u (by
          simp only [IndexTree.nodesList, List.mem_append]
          exact Or.inl hu)) j hj
    · exact forest_keptChain fs document compilerOptions symbols rest d
        (fun t ht => hroots t (List.mem_cons_of_mem _ ht))
        (fun u hu => hspec u (by
          simp only [IndexTree.nodesList, List.mem_append]
          exact Or.inr hu)) j hj
end

theorem keptChain_mem_forest (fs : FileSystem) (document : LspTextDocument)
    (compilerOptions : CompilerOptions) (symbols : List document_symbols)
    (forest : List IndexTree)
    (hroots : forest.map IndexTree.index
      = (symbols.enum.filter (keptRoot fs document compilerOptions)).map Prod.fst)
    (hgood : ∀ t ∈ forest, GoodTree fs document compilerOptions symbols 0 t) :
    ∀ (d j : Nat), keptChainIn fs document compilerOptions symbols d j = true →
      j ∈ IndexTree.preorderList forest := by
  intro d
  induction d with
  | zero =>
    intro j hj
    cases hs : symbols[j]? with
    | none => simp [keptChainIn, hs] at hj
    | some symbol =>
      simp only [keptChainIn, hs, Bool.and_eq_true, decide_eq_true_eq] at hj
      have hmem : (j, symbol) ∈ symbols.enum.filter (keptRoot fs document compilerOptions) :=
        (mem_keptRoots _ _ _ _ _).mpr ⟨hs, hj.1, hj.2⟩
      have : j ∈ forest.map IndexTree.index := by
        rw [hroots]
        exact List.mem_map.mpr ⟨(j, symbol), hmem, rfl⟩
      obtain ⟨t, ht, hti⟩ := List.mem_map.mp this
      exact (IndexTree.mem_preorderList forest j).mpr
        ⟨t, ht, hti ▸ IndexTree.index_mem_preorder t⟩
  | succ d ih =>
    intro j hj
    cases hs : symbols[j]? with
    | none => simp [keptChainIn, hs] at hj
    | some symbol =>
      simp only [keptChainIn, hs, Bool.and_eq_true, decide_eq_true_eq] at hj
      obtain ⟨⟨hkept, hnonneg⟩, hparent⟩ := hj
      obtain ⟨t, ht, hpt⟩ := (IndexTree.mem_preorderList forest _).mp (ih _ hparent)
      have hchild : (j, symbol)
          ∈ keptChildren fs document compilerOptions symbols symbol.parent_index.toNat := by
        unfold keptChildren
        rw [List.mem_filter]
        refine ⟨List.mk_mem_enum_iff_getElem?.mpr hs, ?_⟩
        simp only [keptChild, hkept, Bool.true_and, decide_eq_true_eq]
        exact (Int.toNat_of_nonneg hnonneg).symm
      exact (IndexTree.mem_preorderList forest j).mpr
        ⟨t, ht, (hgood t ht).closed _ hpt _ hchild⟩

/-- C23: the hierarchical build always comes back, whatever the parent indices are (cycles
and self-parents included): `walk` never exhausts the recursion depth `symbols.length`. When the
filenames resolve and the non-negative parent indices are in range it returns a tree, and in
every tree it returns no symbol stands for two nodes: each symbol is visited at most once. -/
theorem hierarchical_build_terminates (env : Environment) (s s1 : LFortranLspLanguageServer)
    (params : DocumentSymbolParams) (document : LspTextDocument)
    (compilerOptions : CompilerOptions) (symbols : List document_symbols)
    (hdoc : env.getDocument params.uri = .ok document)
    (hopts : getCompilerOptions env s document = (.ok compilerOptions, s1))
    (hsym : env.lfortran.getSymbols document.path document.text compilerOptions = .ok symbols)
    (hhier : s1.clientSupportsHierarchicalDocumentSymbols = true) :
    (receiveTextDocument_documentSymbol env s params).1 ≠ none ∧
    ((∀ symbol ∈ symbols, ∃ path,
        resolve env.fs symbol.filename compilerOptions = .ok path) →
      (∀ symbol ∈ symbols, 0 ≤ symbol.parent_index →
        symbol.parent_index.toNat < symbols.length) →
      ∃ documentSymbols, (receiveTextDocument_documentSymbol env s params).1
        = some (.ok (.documentSymbols documentSymbols))) ∧
    ∀ documentSymbols,
      (receiveTextDocument_documentSymbol env s params).1
        = some (.ok (.documentSymbols documentSymbols)) →
      ∃ forest : List IndexTree,
        IndexTree.renderList symbols forest = some documentSymbols ∧
        ((IndexTree.nodesList forest).map IndexTree.index).Nodup := by
  obtain ⟨hcomes, hshape, hreturns⟩ := documentSymbol_hierarchical_outcome env s s1 params
    document compilerOptions symbols hdoc hopts hsym hhier
  refine ⟨hcomes, ?_, ?_⟩
  · intro hresolve hparent
    obtain ⟨r, hr⟩ := hreturns hresolve hparent
    obtain ⟨documentSymbols, rfl⟩ := hshape r hr
    exact ⟨documentSymbols, hr⟩
  · intro documentSymbols hres
    obtain ⟨forest, hrender, _, _, hnodup⟩ := documentSymbol_hierarchical_returned env s s1
      params document compilerOptions symbols documentSymbols hdoc hopts hsym hhier hres
    refine ⟨forest, hrender, ?_⟩
    rw [← IndexTree.preorderList_eq_nodesList]
    exact hnodup

theorem hierarchical_build_terminates_witness :
    (∀ symbol ∈ Example.cyclic, 0 ≤ symbol.parent_index →
      symbol.parent_index.toNat < Example.cyclic.length) ∧
    (receiveTextDocument_documentSymbol (Example.env [] Example.cyclic) Example.hierarchical
      Example.symbolParams).1 =
      some (.ok (.documentSymbols
        [.mk "top" .Function Example.outlineRange Example.outlineRange none])) ∧
    ∃ forest : List IndexTree,
      IndexTree.renderList Example.cyclic forest
        = some [.mk "top" .Function Example.outlineRange Example.outlineRange none] ∧
      ((IndexTree.nodesList forest).map IndexTree.index).Nodup :=
  ⟨by decide, rfl,
    (hierarchical_build_terminates (Example.env [] Example.cyclic) Example.hierarchical
      Example.hierarchicalCached Example.symbolParams Example.document Example.options
      Example.cyclic (by decide) (by decide) (by decide) (by decide)).2.2 _ rfl⟩

/-- C24: in hierarchical mode, the symbols that stand for a node of a returned tree are
exactly the kept symbols whose whole chain of parents consists of kept symbols and ends at a
parentless symbol; the top-level nodes are exactly the kept parentless symbols, so a kept
symbol with an ancestor in another file, or on a parent cycle, is left out and not promoted to
a root. -/
theorem hierarchical_nodes_kept_chain (env : Environment) (s s1 : LFortranLspLanguageServer)
    (params : DocumentSymbolParams) (document : LspTextDocument)
    (compilerOptions : CompilerOptions) (symbols : List document_symbols)
    (documentSymbols : List DocumentSymbol)
    (hdoc : env.getDocument params.uri = .ok document)
    (hopts : getCompilerOptions env s document = (.ok compilerOptions, s1))
    (hsym : env.lfortran.getSymbols document.path document.text compilerOptions = .ok symbols)
    (hhier : s1.clientSupportsHierarchicalDocumentSymbols = true)
    (hres : (receiveTextDocument_documentSymbol env s params).1
      = some (.ok (.documentSymbols documentSymbols))) :
    ∃ forest : List IndexTree,
      IndexTree.renderList symbols forest = some documentSymbols ∧
      forest.map IndexTree.index
        = (symbols.enum.filter (keptRoot env.fs document compilerOptions)).map Prod.fst ∧
      ∀ i, i ∈ (IndexTree.nodesList forest).map IndexTree.index ↔
        ∃ d, keptChainIn env.fs document compilerOptions symbols d i = true := by
  obtain ⟨forest, hrender, hroots, hgood, _⟩ := documentSymbol_hierarchical_returned env s s1
    params document compilerOptions symbols documentSymbols hdoc hopts hsym hhier hres
  refine ⟨forest, hrender, hroots, ?_⟩
  intro i
  rw [← IndexTree.preorderList_eq_nodesList]
  constructor
  · intro hi
    refine forest_keptChain env.fs document compilerOptions symbols forest 0 ?_ ?_ i hi
    · intro t ht
      have hmem : t.index ∈ (symbols.enum.filter
          (keptRoot env.fs document compilerOptions)).map Prod.fst := by
        rw [← hroots]
        exact List.mem_map_of_mem _ ht
      obtain ⟨entry, hentry, hidx⟩ := List.mem_map.mp hmem
      obtain ⟨hget, hkept, hneg⟩ := (mem_keptRoots _ _ _ _ _).mp hentry
      rw [← hidx]
      simp [keptChainIn, hget, hkept, hneg]
    · intro u hu
      obtain ⟨t, ht, hut⟩ := (IndexTree.mem_nodesList forest u).mp hu
      exact (hgood t ht).children u hut
  · rintro ⟨d, hd⟩
    exact keptChain_mem_forest env.fs document compilerOptions symbols forest hroots hgood d i hd

theorem hierarchical_nodes_kept_chain_witness :
    isKept Example.fs Example.document Example.options
      (Example.symbol "orphan" "a.f90" 1) = true ∧
    isKept Example.fs Example.document Example.options
      (Example.symbol "elsewhere" "b.f90" (-1)) = false ∧
    (receiveTextDocument_documentSymbol (Example.env [] Example.orphaned) Example.hierarchical
      Example.symbolParams).1 =
      some (.ok (.documentSymbols
        [.mk "here" .Function Example.outlineRange Example.outlineRange none])) ∧
    ∃ forest : List IndexTree,
      IndexTree.renderList Example.orphaned forest
        = some [.mk "here" .Function Example.outlineRange Example.outlineRange none] ∧
      forest.map IndexTree.index
        = (Example.orphaned.enum.filter
            (keptRoot Example.fs Example.document Example.options)).map Prod.fst ∧
      ∀ i, i ∈ (IndexTree.nodesList forest).map IndexTree.index ↔
        ∃ d, keptChainIn Example.fs Example.document Example.options Example.orphaned d i
          = true :=
  ⟨by decide, by decide, rfl,
    hierarchical_nodes_kept_chain (Example.env [] Example.orphaned) Example.hierarchical
      Example.hierarchicalCached Example.symbolParams Example.document Example.options
      Example.orphaned _ (by decide) (by decide) (by decide) (by decide) rfl⟩

/-- C25: in hierarchical mode, when every filename resolves and every non-negative parent
index is below the length of the list, `documentSymbol` returns a tree (no exception: the
out-of-range branch of the parent lookup is not reached); and when some kept symbol has a
parent index at or past the length of the list, the whole request fails with an exception
(the one of the parent lookup when the filenames resolve) and returns no tree at all. -/
theorem parent_lookup_in_range (env : Environment) (s s1 : LFortranLspLanguageServer)
    (params : DocumentSymbolParams) (document : LspTextDocument)
    (compilerOptions : CompilerOptions) (symbols : List document_symbols)
    (hdoc : env.getDocument params.uri = .ok document)
    (hopts : getCompilerOptions env s document = (.ok compilerOptions, s1))
    (hsym : env.lfortran.getSymbols document.path document.text compilerOptions = .ok symbols)
    (hhier : s1.clientSupportsHierarchicalDocumentSymbols = true) :
    ((∀ symbol ∈ symbols, ∃ path,
        resolve env.fs symbol.filename compilerOptions = .ok path) →
      (∀ symbol ∈ symbols, 0 ≤ symbol.parent_index →
        symbol.parent_index.toNat < symbols.length) →
      ∃ documentSymbols, (receiveTextDocument_documentSymbol env s params).1
        = some (.ok (.documentSymbols documentSymbols))) ∧
    ((∃ symbol ∈ symbols, isKept env.fs document compilerOptions symbol = true ∧
        (symbols.length : Int) ≤ symbol.parent_index) →
      (∃ e, (receiveTextDocument_documentSymbol env s params).1 = some (.error e)) ∧
      ((∀ symbol ∈ symbols, ∃ path,
          resolve env.fs symbol.filename compilerOptions = .ok path) →
        ∃ what, (receiveTextDocument_documentSymbol env s params).1
          = some (.error (.stdException what)))) := by
  constructor
  · intro hresolve hparent
    obtain ⟨_, hshape, hreturns⟩ := documentSymbol_hierarchical_outcome env s s1 params
      document compilerOptions symbols hdoc hopts hsym hhier
    obtain ⟨r, hr⟩ := hreturns hresolve hparent
    obtain ⟨documentSymbols, rfl⟩ := hshape r hr
    exact ⟨documentSymbols, hr⟩
  · intro hbad
    obtain ⟨e, he⟩ := indexLoop_fails env.fs document compilerOptions symbols symbols 0
      { childrenBySymbol := [], roots := [] } hbad
    rw [documentSymbol_hierarchical_eq env s s1 params document compilerOptions symbols hdoc
      hopts hsym hhier]
    simp only [he]
    refine ⟨⟨e, rfl⟩, ?_⟩
    intro hresolve
    obtain ⟨what, rfl⟩ := indexLoop_error_kind env.fs document compilerOptions symbols symbols
      hresolve 0 _ e he
    exact ⟨what, rfl⟩

theorem parent_lookup_in_range_witness :
    (∃ documentSymbols,
      (receiveTextDocument_documentSymbol (Example.env [] Example.rootAndChild)
        Example.hierarchical Example.symbolParams).1
        = some (.ok (.documentSymbols documentSymbols))) ∧
    (∃ symbol ∈ Example.dangling,
      isKept Example.fs Example.document Example.options symbol = true ∧
      (Example.dangling.length : Int) ≤ symbol.parent_index) ∧
    ∃ what,
      (receiveTextDocument_documentSymbol (Example.env [] Example.dangling)
        Example.hierarchical Example.symbolParams).1 = some (.error (.stdException what)) := by
  have hbad : ∃ symbol ∈ Example.dangling,
      isKept Example.fs Example.document Example.options symbol = true ∧
      (Example.dangling.length : Int) ≤ symbol.parent_index :=
    ⟨Example.symbol "lost" "a.f90" 5, by decide, by decide, by decide⟩
  refine ⟨?_, hbad, ?_⟩
  · exact (parent_lookup_in_range (Example.env [] Example.rootAndChild) Example.hierarchical
      Example.hierarchicalCached Example.symbolParams Example.document Example.options
      Example.rootAndChild (by decide) (by decide) (by decide) (by decide)).1
      (fun symbol hmem => ⟨"/w/a.f90",
        (by decide : ∀ symbol ∈ Example.rootAndChild,
          resolve Example.fs symbol.filename Example.options = .ok "/w/a.f90") symbol hmem⟩)
      (by decide)
  · exact ((parent_lookup_in_range (Example.env [] Example.dangling) Example.hierarchical
      Example.hierarchicalCached Example.symbolParams Example.document Example.options
      Example.dangling (by decide) (by decide) (by decide) (by decide)).2 hbad).2
      (fun symbol hmem => ⟨"/w/a.f90",
        (by decide : ∀ symbol ∈ Example.dangling,
          resolve Example.fs symbol.filename Example.options = .ok "/w/a.f90") symbol hmem⟩)

end LFortranLsp
